import Mathlib

/-!
GlycCat: event log, fan-out and message store

A shallow embedding of `server/server.go` (EventQueue, Server.Send, NewServer, Close),
`database/message.go` (the message store over an ordered key-value store),
`log/log.go` (the level threshold), `processor/process_message_delete.go` and
`convertDtoMessageToMessage` of `server/httpapi/message_create.go`, followed by the
properties established about them.

Conventions
* Go strings that end up in store keys are byte strings, modelled as `List Nat`.
* A Go pointer that may be nil is an `Option`; a function that may dereference nil
  returns a `Run`, whose `panic` stands for the nil dereference.
* Go `int`/`int64` values are `Int`; none of the code below does arithmetic on them.
* Loops whose Go form is `for cond { ... }` are written with a fuel argument; the
  caller passes a bound that is proved to be enough.
-/

namespace GlycCat

/-! ## Events and the event queue (`server/server.go`) -/

/-- The envelope `operation.Event`; only `Sn` is read by the queue. The other two
fields stand for the remaining payload of the envelope. -/
structure Event where
  Sn : Int
  Type_ : String
  Timestamp : Int
deriving DecidableEq, Repr

/-- The struct `EventQueue`: the slice `Events` (the mutex carries no data). -/
structure EventQueue where
  Events : List Event
deriving DecidableEq, Repr

/-- The constructor `NewEventQueue`. -/
def NewEventQueue : EventQueue := { Events := [] }

/-- The method `PopEvent`: nil on an empty queue, otherwise the head is removed and returned. -/
def PopEvent (q : EventQueue) : Option Event × EventQueue :=
  match q.Events with
  | [] => (none, q)
  | event :: rest => (some event, { q with Events := rest })

/-- The `for` loop of `PushEvent`: leave as soon as fewer than 1000 events are stored,
otherwise pop and go round again. -/
def evictLoop : Nat → EventQueue → EventQueue
  | 0, q => q
  | fuel + 1, q =>
    if q.Events.length < 1000 then q
    else evictLoop fuel (PopEvent q).2

/-- The method `PushEvent`: evict while 1000 or more are stored, then append.
Every round of the loop removes one event, so `length + 1` rounds are enough. -/
def PushEvent (q : EventQueue) (event : Event) : EventQueue :=
  let q1 := evictLoop (q.Events.length + 1) q
  { q1 with Events := q1.Events ++ [event] }

/-- The body of the `range` loop of `ResumeEvents` on the pair (events, isFound). -/
def resumeStep (Sn : Int) (st : List Event × Bool) (event : Event) : List Event × Bool :=
  if event.Sn = Sn then (st.1, true)
  else if st.2 then (st.1 ++ [event], st.2)
  else st

/-- The method `ResumeEvents`: the returned slice and the queue afterwards. -/
def ResumeEvents (q : EventQueue) (Sn : Int) : List Event × EventQueue :=
  ((q.Events.foldl (resumeStep Sn) ([], false)).1, q)

/-- The method `Clear`. -/
def Clear (q : EventQueue) : EventQueue := { q with Events := [] }

/-- Pushing a sequence of events one after the other. -/
def pushAll (q : EventQueue) (events : List Event) : EventQueue :=
  events.foldl PushEvent q

/-- Stored sequence numbers strictly increase in storage order. -/
def SnIncreasing (events : List Event) : Prop :=
  events.Pairwise (fun a b => a.Sn < b.Sn)

instance (events : List Event) : Decidable (SnIncreasing events) := by
  unfold SnIncreasing; infer_instance

/-! ## The server and its fan-out (`server/server.go`) -/

/-- A Go `error` value as `Send` tells them apart: the two sentinels it compares
against, and everything else. -/
inductive GoError where
  | ErrUnauthorized
  | ErrServerError
  | other (msg : String)
deriving DecidableEq, Repr

/-- A push session (`WebSocket`): identified by its address; `IP` is the field `Close` logs. -/
structure WebSocket where
  Addr : Nat
  IP : String
deriving DecidableEq, Repr

/-- A callback sink (`WebHook`): identified by its address; `URL` is what `GetURL` returns. -/
structure WebHook where
  Addr : Nat
  URL : String
deriving DecidableEq, Repr

/-- The part of `config.Config` the server reads. -/
structure Config where
  Version : Int
deriving DecidableEq, Repr

/-- The struct `Server`: the two registries (slices of pointers, nil allowed), the
configuration and the event queue. -/
structure Server where
  websockets : List (Option WebSocket)
  webhooks : List (Option WebHook)
  conf : Config
  events : EventQueue
deriving DecidableEq, Repr

/-- The methods of the sessions that live outside `server.go`: what `PostEvent` returns
for a push session (a pointer receiver, called without a nil check) and for a callback
sink (called after the nil check). `none` is the nil error. -/
structure Clients where
  wsPostEvent : Option WebSocket → Event → Option GoError
  whPostEvent : WebHook → Event → Option GoError

/-- A call `Send` makes on a client. -/
inductive Call where
  | wsPostEvent (ws : Option WebSocket) (event : Event)
  | wsClose (ws : Option WebSocket)
  | whPostEvent (wh : WebHook) (event : Event)
deriving DecidableEq, Repr

/-- The goroutine `Send` starts for one push session: what it puts on `wsResults`
and the calls it makes. -/
def wsTask (env : Clients) (event : Event) (ws : Option WebSocket) :
    Option WebSocket × List Call :=
  match env.wsPostEvent ws event with
  | some _ => (none, [Call.wsPostEvent ws event, Call.wsClose ws])
  | none => (ws, [Call.wsPostEvent ws event])

/-- The goroutine `Send` starts for one callback sink: what it puts on `whResults`
and the calls it makes. -/
def whTask (env : Clients) (event : Event) (wh : Option WebHook) :
    Option WebHook × List Call :=
  match wh with
  | none => (none, [])
  | some w =>
    match env.whPostEvent w event with
    | none => (some w, [Call.whPostEvent w event])
    | some GoError.ErrUnauthorized => (none, [Call.whPostEvent w event])
    | some GoError.ErrServerError => (some w, [Call.whPostEvent w event])
    | some (GoError.other _) => (none, [Call.whPostEvent w event])

/-- The order in which the goroutines of one round finish, per channel: positions in
the registry. A schedule of a round lists every position once. -/
structure Schedule where
  wsOrder : List Nat
  whOrder : List Nat
deriving DecidableEq, Repr

/-- The schedule lists every goroutine of the round exactly once. -/
def Schedule.Fair (sched : Schedule) (server : Server) : Prop :=
  sched.wsOrder.Perm (List.range server.websockets.length) ∧
  sched.whOrder.Perm (List.range server.webhooks.length)

instance (sched : Schedule) (server : Server) : Decidable (sched.Fair server) := by
  unfold Schedule.Fair; infer_instance

/-- The results of the tasks started for `clients`, in the order `order` they finish in. -/
def finished {α β : Type} (task : α → β) (clients : List α) (order : List Nat) : List β :=
  order.filterMap (fun i => (clients.map task)[i]?)

/-- The drain loops at the end of `Send`: keep what is not nil. -/
def collect {α : Type} (results : List (Option α)) : List (Option α) :=
  results.filter (fun r => r.isSome)

/-- The method `Send`: the server afterwards and the calls made on clients. The event
is pushed first; the goroutines of both registries run and finish in the order the
schedule gives; the registries are replaced by what the channels hold that is not nil. -/
def Send (server : Server) (event : Event) (env : Clients) (sched : Schedule) :
    Server × List Call :=
  let events := PushEvent server.events event
  let wsDone := finished (wsTask env event) server.websockets sched.wsOrder
  let whDone := finished (whTask env event) server.webhooks sched.whOrder
  let wsResults := wsDone.map Prod.fst
  let whResults := whDone.map Prod.fst
  let websockets := collect wsResults
  let webhooks := collect whResults
  ({ server with websockets := websockets, webhooks := webhooks, events := events },
    (wsDone.map Prod.snd).flatten ++ (whDone.map Prod.snd).flatten)

/-- The `PostEvent` calls made on push sessions: the session and the event of each. -/
def wsPosted (calls : List Call) : List (Option WebSocket × Event) :=
  calls.filterMap (fun c =>
    match c with
    | Call.wsPostEvent ws e => some (ws, e)
    | _ => none)

/-- The push sessions `Close` was called on, one entry per call. -/
def wsClosed (calls : List Call) : List (Option WebSocket) :=
  calls.filterMap (fun c =>
    match c with
    | Call.wsClose ws => some ws
    | _ => none)

/-- The `PostEvent` calls made on callback sinks: the sink and the event of each. -/
def whPosted (calls : List Call) : List (WebHook × Event) :=
  calls.filterMap (fun c =>
    match c with
    | Call.whPostEvent wh e => some (wh, e)
    | _ => none)

/-- A callback sink stays registered: it is not nil and its `PostEvent` returned nil
or `ErrServerError`. -/
def whKept (env : Clients) (event : Event) (wh : Option WebHook) : Bool :=
  match wh with
  | none => false
  | some w =>
    match env.whPostEvent w event with
    | none => true
    | some GoError.ErrServerError => true
    | some _ => false

/-! ## The message store (`database/message.go`) -/

/-- A Go byte string. -/
abbrev Bytes := List Nat

/-- The order of `bytes.Compare`, the comparer of the key-value store: is `a` before `b`. -/
def bytesLt : Bytes → Bytes → Bool
  | [], [] => false
  | [], _ :: _ => true
  | _ :: _, [] => false
  | a :: as, b :: bs => decide (a < b) || (decide (a = b) && bytesLt as bs)

/-- The bytes of an ASCII string literal. -/
def ascii (s : String) : Bytes := s.toList.map Char.toNat

/-- The byte `:`. -/
def colon : Bytes := [58]

/-- The type `message.Message` of the protocol model: the two text fields and the two
time stamps (the nested channel, guild, member and user records are left out). -/
structure Message where
  Id : Bytes
  Content : Bytes
  CreateAt : Int
  UpdateAt : Int
deriving DecidableEq, Repr

/-- The `encoding/gob` coder for `Message`, `none` standing for an error. -/
structure Gob where
  Encode : Message → Option Bytes
  Decode : Bytes → Option Message

/-- A key-value pair of the store. -/
abbrev Entry := Bytes × Bytes

/-- The key-value store `leveldb.DB`: its pairs in ascending key order. -/
abbrev DB := List Entry

/-- The keys of the store strictly ascend: the shape every state of the store has. -/
def DB.Sorted (db : DB) : Prop :=
  db.Pairwise (fun a b => bytesLt a.1 b.1 = true)

instance (db : DB) : Decidable (DB.Sorted db) := by
  unfold DB.Sorted; infer_instance

/-- The call `DB.Put`: write at the place the key order gives, replacing an equal key. -/
def DB.Put (db : DB) (key value : Bytes) : DB :=
  match db with
  | [] => [(key, value)]
  | e :: rest =>
    if bytesLt key e.1 then (key, value) :: e :: rest
    else if key = e.1 then (key, value) :: rest
    else e :: DB.Put rest key value

/-- The call `DB.Get`: the value under the key, `none` for `ErrNotFound`. -/
def DB.Get (db : DB) (key : Bytes) : Option Bytes :=
  (db.find? (fun e => e.1 = key)).map Prod.snd

/-- The struct `MessageDB`. -/
structure MessageDB where
  DB : DB
  limit : Int
deriving DecidableEq, Repr

/-- The format `"%s:%s:%s"` of `SaveMessage`, `GetMessage` and `GetMessageList`. -/
def messageKey (channelType channelId messageId : Bytes) : Bytes :=
  channelType ++ colon ++ channelId ++ colon ++ messageId

/-- The format `"%s:%s"` of the iterator prefix in `GetMessageList`. -/
def listPrefix (channelType channelId : Bytes) : Bytes :=
  channelType ++ colon ++ channelId

/-- The function `SaveMessage` on the store instance (`none`: the store was never
started): the instance afterwards and the error. -/
def SaveMessage (gob : Gob) (inst : Option MessageDB) (data : Message)
    (channelId channelType : Bytes) : Option MessageDB × Option GoError :=
  match inst with
  | none => (none, none)
  | some mdb =>
    match gob.Encode data with
    | none => (some mdb, some (GoError.other "gob: encode"))
    | some buf =>
      let key := messageKey channelType channelId data.Id
      (some { mdb with DB := mdb.DB.Put key buf }, none)

/-- The error `leveldb.ErrNotFound` that `DB.Get` returns for a key without record. -/
def ErrNotFound : GoError := GoError.other "leveldb: not found"

/-- The function `GetMessage`: the message and the error. -/
def GetMessage (gob : Gob) (inst : Option MessageDB)
    (channelId channelType messageId : Bytes) : Option Message × Option GoError :=
  match inst with
  | none => (none, none)
  | some mdb =>
    let key := messageKey channelType channelId messageId
    match mdb.DB.Get key with
    | none => (none, some ErrNotFound)
    | some data =>
      match gob.Decode data with
      | none => (none, some (GoError.other "gob: decode"))
      | some message => (some message, none)

/-- The type `QueryDirection`, a Go string. -/
abbrev QueryDirection := String

/-- The constant `QueryDirectionBefore`. -/
def QueryDirectionBefore : QueryDirection := "before"

/-- The constant `QueryDirectionAfter`. -/
def QueryDirectionAfter : QueryDirection := "after"

/-- The constant `QueryDirectionAround`. -/
def QueryDirectionAround : QueryDirection := "around"

/-- An iterator of the key-value store (the external library goleveldb, modelled after
its documented contract) over a sorted run of pairs. It stands before the first pair
(`soi`), on a pair (`valid`, with the pairs before it nearest first and the pairs after
it), or past the last pair (`eoi`, with all pairs nearest first). -/
inductive Iterator where
  | soi (entries : List Entry)
  | valid (before : List Entry) (cur : Entry) (after : List Entry)
  | eoi (before : List Entry)
deriving DecidableEq, Repr

/-- The pairs an iterator ranges over, in ascending key order. -/
def Iterator.entries : Iterator → List Entry
  | Iterator.soi es => es
  | Iterator.valid before cur after => before.reverse ++ cur :: after
  | Iterator.eoi before => before.reverse

/-- The call `DB.NewIterator(util.BytesPrefix(prefix), nil)`: an iterator over the
pairs whose key starts with `prefix`. -/
def NewIterator (db : DB) (pfx : Bytes) : Iterator :=
  Iterator.soi (db.filter (fun e => pfx.isPrefixOf e.1))

/-- The call `Iterator.First`: move to the first pair, false when there is none. -/
def Iterator.First (it : Iterator) : Bool × Iterator :=
  match it.entries with
  | [] => (false, Iterator.eoi [])
  | cur :: after => (true, Iterator.valid [] cur after)

/-- The call `Iterator.Last`: move to the last pair, false when there is none. -/
def Iterator.Last (it : Iterator) : Bool × Iterator :=
  match it.entries.reverse with
  | [] => (false, Iterator.soi [])
  | cur :: before => (true, Iterator.valid before cur [])

/-- The call `Iterator.Seek`: move to the first pair whose key is not before `key`,
past the end when there is none. -/
def Iterator.Seek (it : Iterator) (key : Bytes) : Bool × Iterator :=
  let before := it.entries.takeWhile (fun e => bytesLt e.1 key)
  match it.entries.dropWhile (fun e => bytesLt e.1 key) with
  | [] => (false, Iterator.eoi before.reverse)
  | cur :: after => (true, Iterator.valid before.reverse cur after)

/-- The call `Iterator.Prev`: one pair back, false when there is none; from past the
end it moves to the last pair. -/
def Iterator.Prev (it : Iterator) : Bool × Iterator :=
  match it with
  | Iterator.soi es => (false, Iterator.soi es)
  | Iterator.valid [] cur after => (false, Iterator.soi (cur :: after))
  | Iterator.valid (p :: before) cur after => (true, Iterator.valid before p (cur :: after))
  | Iterator.eoi before => (Iterator.eoi before).Last

/-- The call `Iterator.Next`: one pair on, false when there is none; from before the
start it moves to the first pair. -/
def Iterator.Next (it : Iterator) : Bool × Iterator :=
  match it with
  | Iterator.eoi before => (false, Iterator.eoi before)
  | Iterator.valid before cur [] => (false, Iterator.eoi (cur :: before))
  | Iterator.valid before cur (n :: after) => (true, Iterator.valid (cur :: before) n after)
  | Iterator.soi es => (Iterator.soi es).First

/-- The call `Iterator.Key`: the key of the pair the iterator stands on. -/
def Iterator.Key : Iterator → Bytes
  | Iterator.valid _ cur _ => cur.1
  | _ => []

/-- The call `Iterator.Value`: the value of the pair the iterator stands on. -/
def Iterator.Value : Iterator → Bytes
  | Iterator.valid _ cur _ => cur.2
  | _ => []

/-- The loop `for iter.Prev()` of `GetMessageList`, together with the key of every
message it appends. -/
def prevLoop (gob : Gob) (limit : Int) :
    Nat → Iterator → List (Bytes × Message) → Iterator × List (Bytes × Message)
  | 0, iter, prevMessageList => (iter, prevMessageList)
  | fuel + 1, iter, prevMessageList =>
    match iter.Prev with
    | (false, iter1) => (iter1, prevMessageList)
    | (true, iter1) =>
      if (prevMessageList.length : Int) ≥ limit then (iter1, prevMessageList)
      else
        match gob.Decode iter1.Value with
        | none => prevLoop gob limit fuel iter1 prevMessageList
        | some message =>
          prevLoop gob limit fuel iter1 (prevMessageList ++ [(iter1.Key, message)])

/-- The loop `for iter.Next()` of `GetMessageList`, together with the key of every
message it appends. -/
def nextLoop (gob : Gob) (limit : Int) :
    Nat → Iterator → List (Bytes × Message) → Iterator × List (Bytes × Message)
  | 0, iter, nextMessageList => (iter, nextMessageList)
  | fuel + 1, iter, nextMessageList =>
    match iter.Next with
    | (false, iter1) => (iter1, nextMessageList)
    | (true, iter1) =>
      if (nextMessageList.length : Int) ≥ limit then (iter1, nextMessageList)
      else
        match gob.Decode iter1.Value with
        | none => nextLoop gob limit fuel iter1 nextMessageList
        | some message =>
          nextLoop gob limit fuel iter1 (nextMessageList ++ [(iter1.Key, message)])

/-- The body of `GetMessageList` on an opened store, every returned message paired
with the key of the record it was decoded from. Each loop moves the iterator one pair
per round, so one round more than there are pairs is enough fuel. -/
def listKeyed (gob : Gob) (mdb : MessageDB) (channelId channelType next : Bytes)
    (direction : QueryDirection) (limit : Int) :
    List (Bytes × Message) × List (Bytes × Message) :=
  let iter := NewIterator mdb.DB (listPrefix channelType channelId)
  let fuel := iter.entries.length + 1
  let iter :=
    if next ≠ [] then (iter.Seek (messageKey channelType channelId next)).2
    else iter.Last.2
  let prev :=
    if next = [] ∨ (direction = QueryDirectionBefore ∨ direction = QueryDirectionAround) then
      prevLoop gob limit fuel iter []
    else (iter, [])
  if next ≠ [] then
    let iter := (prev.1.Seek (messageKey channelType channelId next)).2
    let nextMessageList :=
      if direction = QueryDirectionAfter ∨ direction = QueryDirectionAround then
        (nextLoop gob limit fuel iter []).2
      else []
    (prev.2, nextMessageList)
  else (prev.2, [])

/-- The function `GetMessageList`: the two lists and the error. -/
def GetMessageList (gob : Gob) (inst : Option MessageDB) (channelId channelType next : Bytes)
    (direction : QueryDirection) (limit : Int) :
    List Message × List Message × Option GoError :=
  match inst with
  | none => ([], [], none)
  | some mdb =>
    let r := listKeyed gob mdb channelId channelType next direction limit
    (r.1.map Prod.snd, r.2.map Prod.snd, none)

/-- The messages of the store in key order, undecodable records left out. -/
def stored (gob : Gob) (db : DB) : List Message :=
  db.filterMap (fun e => gob.Decode e.2)

/-- Every record of the store decodes to a message and lies under the key of that
message in the channel `(channelType, channelId)`. -/
def HoldsOnly (gob : Gob) (db : DB) (channelId channelType : Bytes) : Prop :=
  ∀ e ∈ db, ∃ m, gob.Decode e.2 = some m ∧ e.1 = messageKey channelType channelId m.Id

/-- A coder for the examples: a message is written as the length of its id, then the
id, then the content (the time stamps are not written); reading gives the id and the
content back, and fails on input that is too short. -/
def demoGob : Gob where
  Encode := fun m => some (m.Id.length :: (m.Id ++ m.Content))
  Decode := fun b =>
    match b with
    | [] => none
    | n :: rest => if n ≤ rest.length then some ⟨rest.take n, rest.drop n, 0, 0⟩ else none

/-- The pairs successive `Prev` calls move over, in the order they are reached. -/
def Iterator.behind : Iterator → List Entry
  | Iterator.soi _ => []
  | Iterator.valid before _ _ => before
  | Iterator.eoi before => before

/-- The pairs successive `Next` calls move over, in the order they are reached. -/
def Iterator.ahead : Iterator → List Entry
  | Iterator.soi es => es
  | Iterator.valid _ _ after => after
  | Iterator.eoi _ => []

/-- The decodable records of a run of pairs, each message with the key of its record. -/
def keyed (gob : Gob) (es : List Entry) : List (Bytes × Message) :=
  es.filterMap (fun e => (gob.Decode e.2).map (fun m => (e.1, m)))

/-- The pairs of the store the iterator of `GetMessageList` ranges over. -/
def inRange (db : DB) (channelId channelType : Bytes) : List Entry :=
  db.filter (fun e => (listPrefix channelType channelId).isPrefixOf e.1)

/-! ## Further parts of the model -/

/-- The function `StartMessageDB`, given what `leveldb.OpenFile` returns: the store
instance afterwards (it stays nil on an error) and the error. -/
def StartMessageDB (opened : Except GoError DB) (messageLimit : Int) :
    Option MessageDB × Option GoError :=
  match opened with
  | Except.error err => (none, some err)
  | Except.ok db => (some { DB := db, limit := messageLimit }, none)

/-- The store instance after the start-up code of `main`: `StartMessageDB` is called
only when the message database is enabled, and its error is logged, not raised. -/
def mainMessageDB (enable : Bool) (opened : Except GoError DB) (messageLimit : Int) :
    Option MessageDB :=
  if enable then (StartMessageDB opened messageLimit).1 else none

/-- The coder gives `m` back: encoding succeeds and decoding the bytes yields `m`. -/
def Gob.RoundTrips (gob : Gob) (m : Message) : Prop :=
  (gob.Encode m).bind gob.Decode = some m

instance (gob : Gob) (m : Message) : Decidable (gob.RoundTrips m) := by
  unfold Gob.RoundTrips; infer_instance

/-- The results of `n` successive `PopEvent` calls, and the queue afterwards. -/
def popN : Nat → EventQueue → List (Option Event) × EventQueue
  | 0, q => ([], q)
  | n + 1, q =>
    let r := PopEvent q
    let rest := popN n r.2
    (r.1 :: rest.1, rest.2)

/-- The statement `server.events.PushEvent(event)` of `Send`, on the server. -/
def stampEvent (server : Server) (event : Event) : Server :=
  { server with events := PushEvent server.events event }

/-- What one `Send` call does to the server and to its clients, step by step: the push
of the event onto the event log, a call a goroutine makes on a client, and the
assignment of the two registries at the end. -/
inductive Step where
  | pushEvent (event : Event)
  | client (call : Call)
  | commit (websockets : List (Option WebSocket)) (webhooks : List (Option WebHook))
deriving DecidableEq, Repr

/-- The steps of `Send` in the order they are taken. `PushEvent` is an ordinary call,
it has returned when the first `go` statement is reached; the goroutines then make
their calls, listed as `Send` lists them; the registries are assigned after
`waitGroup.Wait()` has returned. -/
def SendSteps (server : Server) (event : Event) (env : Clients) (sched : Schedule) :
    List Step :=
  let wsDone := finished (wsTask env event) server.websockets sched.wsOrder
  let whDone := finished (whTask env event) server.webhooks sched.whOrder
  [Step.pushEvent event] ++
    ((wsDone.map Prod.snd).flatten ++ (whDone.map Prod.snd).flatten).map Step.client ++
    [Step.commit (collect (wsDone.map Prod.fst)) (collect (whDone.map Prod.fst))]

/-- The server after one step. A call on a client leaves the server as it is. -/
def applyStep (server : Server) : Step → Server
  | Step.pushEvent event => stampEvent server event
  | Step.client _ => server
  | Step.commit websockets webhooks =>
    { server with websockets := websockets, webhooks := webhooks }

/-- The server after all the steps, taken in order from `server`. -/
def runSteps (server : Server) (steps : List Step) : Server :=
  steps.foldl applyStep server

/-- Every step together with the event log as it stands when the step is taken, the
steps being taken in order from `server`. -/
def logAt (server : Server) : List Step → List (Step × EventQueue)
  | [] => []
  | s :: rest => (s, server.events) :: logAt (applyStep server s) rest

/-- The events pushed by the steps, in order. -/
def pushedEvents (steps : List Step) : List Event :=
  steps.filterMap (fun s =>
    match s with
    | Step.pushEvent event => some event
    | _ => none)

/-- The calls on clients among the steps, in order. -/
def clientCalls (steps : List Step) : List Call :=
  steps.filterMap (fun s =>
    match s with
    | Step.client call => some call
    | _ => none)

/-- One `Send` call: the event, what the clients answer in this round, and the order
the goroutines finish in. -/
structure Round where
  event : Event
  env : Clients
  sched : Schedule

/-- Successive `Send` calls with no registration in between: the server afterwards
and the calls of all rounds. -/
def sendAll (server : Server) : List Round → Server × List Call
  | [] => (server, [])
  | r :: rs =>
    let s1 := Send server r.event r.env r.sched
    let s2 := sendAll s1.1 rs
    (s2.1, s1.2 ++ s2.2)

/-- Every round of the sequence has a schedule that fits the registry it starts from. -/
def FairAll (server : Server) : List Round → Prop
  | [] => True
  | r :: rs => r.sched.Fair server ∧ FairAll (Send server r.event r.env r.sched).1 rs

/-- Every record lies under a key of the channel `(channelType, channelId)`, and a
record that decodes lies under the key of its message; records may fail to decode. -/
def InChannel (gob : Gob) (db : DB) (channelId channelType : Bytes) : Prop :=
  ∀ e ∈ db, (∃ id, e.1 = messageKey channelType channelId id) ∧
    ∀ m, gob.Decode e.2 = some m → e.1 = messageKey channelType channelId m.Id

/-! ## Server start and shutdown (`server/server.go`) -/

/-- The function `NewServer`: the server and the error. Only version 1 of the protocol
is known; the HTTP server it also builds is not part of the model. -/
def NewServer (conf : Config) : Option Server × Option GoError :=
  if conf.Version = 1 then
    (some { websockets := [], webhooks := [], conf := conf, events := NewEventQueue }, none)
  else
    (none, some (GoError.other "unknown Satori protocol version"))

/-- The method `Close`: the server afterwards and the calls made on clients. Every
push session that is not nil is closed, in registry order, then both registries are
replaced by empty ones (the shutdown of the HTTP server is not part of the model). -/
def Close (server : Server) : Server × List Call :=
  let closes := server.websockets.filterMap (fun ws =>
    match ws with
    | some w => some (Call.wsClose (some w))
    | none => none)
  ({ server with websockets := [], webhooks := [] }, closes)

/-! ## Locking (`server/server.go`) -/

/-- A synchronisation statement: the operations on `Server.rwMutex` and on
`EventQueue.mutex`, the start of a delivery goroutine for a push session or a callback
sink, `waitGroup.Wait()`, and the assignment of the two registries. -/
inductive Sync where
  | rwRLock
  | rwRUnlock
  | rwLock
  | rwUnlock
  | qLock
  | qUnlock
  | goWebSocket (i : Nat)
  | goWebHook (i : Nat)
  | wait
  | commit
deriving DecidableEq, Repr

/-- The synchronisation statements of `PopEvent`, in program order: there are none. -/
def PopEventSync : List Sync := []

/-- The synchronisation statements of `PushEvent` with `pops` rounds of its loop: the
lock, the `PopEvent` calls, and the deferred unlock. -/
def PushEventSync (pops : Nat) : List Sync :=
  [Sync.qLock] ++ (List.replicate pops PopEventSync).flatten ++ [Sync.qUnlock]

/-- The synchronisation statements of `ResumeEvents`. -/
def ResumeEventsSync : List Sync := [Sync.qLock, Sync.qUnlock]

/-- The synchronisation statements of `Clear`. -/
def ClearSync : List Sync := [Sync.qLock, Sync.qUnlock]

/-- The synchronisation statements of `Send`, in program order: the read lock, the
push, one goroutine per push session and per callback sink, the wait for all of them,
the read unlock, and the exclusive lock around the assignment of the registries. -/
def SendSync (server : Server) : List Sync :=
  [Sync.rwRLock] ++ PushEventSync (server.events.Events.length - 999) ++
    (List.range server.websockets.length).map Sync.goWebSocket ++
    (List.range server.webhooks.length).map Sync.goWebHook ++
    [Sync.wait, Sync.rwRUnlock, Sync.rwLock, Sync.commit, Sync.rwUnlock]

/-- What a statement adds to the number of read locks held on `Server.rwMutex`. -/
def readDelta : Sync → Int
  | Sync.rwRLock => 1
  | Sync.rwRUnlock => -1
  | _ => 0

/-- What a statement adds to the number of exclusive locks held on `Server.rwMutex`. -/
def writeDelta : Sync → Int
  | Sync.rwLock => 1
  | Sync.rwUnlock => -1
  | _ => 0

/-- What a statement adds to the number of locks held on `EventQueue.mutex`. -/
def queueDelta : Sync → Int
  | Sync.qLock => 1
  | Sync.qUnlock => -1
  | _ => 0

/-- Every statement of a run together with the number of locks held when it starts,
`k` being held at the start of the run. -/
def held (delta : Sync → Int) (k : Int) : List Sync → List (Sync × Int)
  | [] => []
  | op :: rest => (op, k) :: held delta (k + delta op) rest

/-- A delivery goroutine is started, or waited for, by this statement. -/
def Sync.isDelivery : Sync → Bool
  | Sync.goWebSocket _ => true
  | Sync.goWebHook _ => true
  | Sync.wait => true
  | _ => false

/-! ## Log levels (`log/log.go`) -/

/-- The type `LogLevel`, a Go int. -/
abbrev LogLevel := Int

/-- The constant `OFF`. -/
def OFF : LogLevel := 0

/-- The constant `FATAL`. -/
def FATAL : LogLevel := 1

/-- The constant `ERROR`. -/
def ERROR : LogLevel := 2

/-- The constant `WARN`. -/
def WARN : LogLevel := 3

/-- The constant `INFO`. -/
def INFO : LogLevel := 4

/-- The constant `DEBUG`. -/
def DEBUG : LogLevel := 5

/-- The constant `TRACE`. -/
def TRACE : LogLevel := 6

/-- The constant `ALL`. -/
def ALL : LogLevel := 7

/-- The levels of the logging library logrus, as numbered there: panic 0, fatal 1,
error 2, warn 3, info 4, debug 5, trace 6. -/
inductive LogrusLevel where
  | PanicLevel
  | FatalLevel
  | ErrorLevel
  | WarnLevel
  | InfoLevel
  | DebugLevel
  | TraceLevel
deriving DecidableEq, Repr

/-- The number of a logrus level. -/
def LogrusLevel.toNat : LogrusLevel → Nat
  | LogrusLevel.PanicLevel => 0
  | LogrusLevel.FatalLevel => 1
  | LogrusLevel.ErrorLevel => 2
  | LogrusLevel.WarnLevel => 3
  | LogrusLevel.InfoLevel => 4
  | LogrusLevel.DebugLevel => 5
  | LogrusLevel.TraceLevel => 6

/-- The function `convertLogLevel`. -/
def convertLogLevel (level : LogLevel) : LogrusLevel :=
  if level = FATAL then LogrusLevel.FatalLevel
  else if level = ERROR then LogrusLevel.ErrorLevel
  else if level = WARN then LogrusLevel.WarnLevel
  else if level = INFO then LogrusLevel.InfoLevel
  else if level = DEBUG then LogrusLevel.DebugLevel
  else if level = TRACE then LogrusLevel.TraceLevel
  else LogrusLevel.InfoLevel

/-- The struct `Logger`: its own `Level` and the level of the embedded logrus logger. -/
structure Logger where
  Level : LogLevel
  logrusLevel : LogrusLevel
deriving DecidableEq, Repr

/-- The function `SetLogLevel` on the package logger. -/
def SetLogLevel (l : Logger) (level : LogLevel) : Logger :=
  { l with Level := level, logrusLevel := convertLogLevel level }

/-- The call `IsLevelEnabled` of logrus, which `Log` asks before it writes: the level
of the logger is at least the level of the message. -/
def IsLevelEnabled (loggerLevel level : LogrusLevel) : Bool :=
  decide (loggerLevel.toNat ≥ level.toNat)

/-- The method `Println`: is the message written. It returns early when the level of
the message is above `Level`, and otherwise hands the message to logrus at the
converted level. -/
def Println (l : Logger) (level : LogLevel) : Bool :=
  if level > l.Level then false
  else IsLevelEnabled l.logrusLevel (convertLogLevel level)

/-- The logger as `init` leaves it. -/
def initLogger : Logger := { Level := INFO, logrusLevel := LogrusLevel.InfoLevel }

/-! ## Platform payloads and protocol records -/

/-- The outcome of a Go function that may run into a nil dereference: it panics, or it
finishes with a value. -/
inductive Run (α : Type) where
  | panic
  | done (value : α)
deriving DecidableEq, Repr

/-- The struct `dto.User` of the platform SDK, as far as it is read. -/
structure DtoUser where
  ID : String
  Username : String
  Avatar : String
  Bot : Bool
deriving DecidableEq, Repr

/-- The struct `dto.Member`, as far as it is read. -/
structure DtoMember where
  Nick : String
  JoinedAt : String
deriving DecidableEq, Repr

/-- The struct `dto.Message`, as far as it is read; `Author` and `Member` are pointers. -/
structure DtoMessage where
  ID : String
  ChannelID : String
  GuildID : String
  GroupID : String
  Timestamp : String
  Author : Option DtoUser
  Member : Option DtoMember
deriving DecidableEq, Repr

/-- The struct `dto.MessageDelete`. -/
structure MessageDelete where
  Message : DtoMessage
  OpUser : DtoUser
deriving DecidableEq, Repr

/-- The struct `dto.Payload`, as far as it is read. -/
structure Payload where
  Type_ : String
  ID : String
deriving DecidableEq, Repr

/-- The dynamic type of the argument `data interface{}` of `ProcessMessageDelete`: a
(non-nil) pointer to one of the three delete payloads, or anything else. -/
inductive DeleteData where
  | MessageDeleteData (v : MessageDelete)
  | PublicMessageDeleteData (v : MessageDelete)
  | DirectMessageDeleteData (v : MessageDelete)
  | other (shown : String)
deriving DecidableEq, Repr

/-- The constant `dto.EventMessageDelete`. -/
def EventMessageDelete : String := "MESSAGE_DELETE"

/-- The constant `dto.EventPublicMessageDelete`. -/
def EventPublicMessageDelete : String := "PUBLIC_MESSAGE_DELETE"

/-- The constant `dto.EventDirectMessageDelete`. -/
def EventDirectMessageDelete : String := "DIRECT_MESSAGE_DELETE"

/-- The type `channel.ChannelType` of the protocol model. -/
inductive ChannelType where
  | ChannelTypeText
  | ChannelTypeDirect
  | ChannelTypeCategory
  | ChannelTypeVoice
deriving DecidableEq, Repr

/-- The struct `channel.Channel`, as far as it is filled. -/
structure Channel where
  Id : String
  Type_ : ChannelType
deriving DecidableEq, Repr

/-- The struct `guild.Guild`, as far as it is filled. -/
structure Guild where
  Id : String
deriving DecidableEq, Repr

/-- The struct `user.User`, as far as it is filled. -/
structure User where
  Id : String
  Name : String
  Avatar : String
  IsBot : Bool
deriving DecidableEq, Repr

/-- The struct `guildmember.GuildMember`, as far as it is filled. -/
structure GuildMember where
  Nick : String
  Avatar : String
  JoinedAt : Int
deriving DecidableEq, Repr

/-- The struct `message.Message` with its nested records (the store model `Message`
keeps the scalar fields only). -/
structure SatoriMessage where
  Id : String
  Content : String
  Channel : Option Channel
  Guild : Option Guild
  Member : Option GuildMember
  User : Option User
  CreateAt : Int
  UpdateAt : Int
deriving DecidableEq, Repr

/-- The struct `operation.Event` with the records `ProcessMessageDelete` fills (the
queue model `Event` keeps the scalar fields only). -/
structure EventRecord where
  Sn : Int
  Type_ : String
  Timestamp : Int
  Login : String
  Channel : Option Channel
  Guild : Option Guild
  Message : Option SatoriMessage
  Operator : Option User
  User : Option User
deriving DecidableEq, Repr

/-- The constant `operation.EventTypeMessageDeleted`. -/
def EventTypeMessageDeleted : String := "message-deleted"

/-! ## Message deletion (`processor/process_message_delete.go`) -/

/-- The format `"%s(%s)"`. -/
def nameWithId (name id : String) : String := name ++ "(" ++ id ++ ")"

/-- Reading `data.Message.Author.ID`: a nil dereference when there is no author. -/
def authorID (data : MessageDelete) : Run String :=
  match data.Message.Author with
  | none => Run.panic
  | some author => Run.done author.ID

/-- The condition `data.Message.Member != nil && data.Message.Member.Nick != ""`: the
nick when it holds. -/
def nickOf (data : MessageDelete) : Option String :=
  match data.Message.Member with
  | some member => if member.Nick ≠ "" then some member.Nick else none
  | none => none

/-- The member name `printMessageDeleteEvent` builds. -/
def memberNameOf (data : MessageDelete) : Run String :=
  match nickOf data with
  | some nick =>
    match authorID data with
    | Run.panic => Run.panic
    | Run.done id => Run.done (nameWithId nick id)
  | none =>
    match data.Message.Author with
    | some author =>
      if author.Username ≠ "" then Run.done (nameWithId author.Username author.ID)
      else Run.done author.ID
    | none => Run.done ""

/-- The condition `memberName == "" || data.OpUser.ID == data.Message.Author.ID`: the
author is read only when the member name is not empty. -/
def ownMessage (data : MessageDelete) (memberName : String) : Run Bool :=
  if memberName = "" then Run.done true
  else
    match authorID data with
    | Run.panic => Run.panic
    | Run.done id => Run.done (decide (data.OpUser.ID = id))

/-- The log line of the first two cases of the switch on `payload.Type`. -/
def guildLine (data : MessageDelete) (userName memberName : String) : Run String :=
  match ownMessage data memberName with
  | Run.panic => Run.panic
  | Run.done true =>
    Run.done ("频道 " ++ data.Message.GuildID ++ " 的子频道 " ++ data.Message.ChannelID ++
      " 的用户 " ++ userName ++ " 撤回了一条消息。")
  | Run.done false =>
    Run.done ("频道 " ++ data.Message.GuildID ++ " 的子频道 " ++ data.Message.ChannelID ++
      " 的用户 " ++ userName ++ " 撤回了用户 " ++ memberName ++ " 的一条消息。")

/-- The function `printMessageDeleteEvent`: the line it logs, or a panic. -/
def printMessageDeleteEvent (payload : Payload) (data : MessageDelete) : Run String :=
  let userName :=
    if data.OpUser.Username ≠ "" then nameWithId data.OpUser.Username data.OpUser.ID
    else data.OpUser.ID
  match memberNameOf data with
  | Run.panic => Run.panic
  | Run.done memberName =>
    if payload.Type_ = EventMessageDelete then guildLine data userName memberName
    else if payload.Type_ = EventPublicMessageDelete then guildLine data userName memberName
    else if payload.Type_ = EventDirectMessageDelete then
      Run.done ("用户 " ++ userName ++ " 撤回了一条私聊频道消息。")
    else
      match ownMessage data memberName with
      | Run.panic => Run.panic
      | Run.done true => Run.done ("用户 " ++ userName ++ " 撤回了一条消息。")
      | Run.done false =>
        Run.done ("用户 " ++ userName ++ " 撤回了用户 " ++ memberName ++ " 的一条消息。")

/-- What `ProcessMessageDelete` calls outside its file: `SaveEventID`, the clock, the
login record for the platform, and `BroadcastEvent` (`none` is the nil error). -/
structure Processor where
  SaveEventID : String → Int
  now : Int
  buildNonLoginEventLogin : String → String
  BroadcastEvent : EventRecord → Option GoError

/-- What one call of `ProcessMessageDelete` did: the error it returned and the event it
handed to `BroadcastEvent`, if any. -/
structure Processed where
  err : Option GoError
  broadcast : Option EventRecord
deriving DecidableEq, Repr

/-- The part of `ProcessMessageDelete` after the type switch. -/
def processDelete (p : Processor) (payload : Payload) (messageDelete : MessageDelete)
    (channelType : ChannelType) : Run Processed :=
  match printMessageDeleteEvent payload messageDelete with
  | Run.panic => Run.panic
  | Run.done _ =>
    let id := p.SaveEventID payload.ID
    let t := p.now
    let channel : Channel := { Id := messageDelete.Message.ChannelID, Type_ := channelType }
    let guild : Guild := { Id := messageDelete.Message.GuildID }
    let message : SatoriMessage :=
      { Id := messageDelete.Message.ID, Content := "", Channel := none, Guild := none,
        Member := none, User := none, CreateAt := 0, UpdateAt := 0 }
    let operator : User :=
      { Id := messageDelete.OpUser.ID, Name := messageDelete.OpUser.Username,
        Avatar := messageDelete.OpUser.Avatar, IsBot := messageDelete.OpUser.Bot }
    let event : EventRecord :=
      { Sn := id, Type_ := EventTypeMessageDeleted, Timestamp := t,
        Login := p.buildNonLoginEventLogin "qqguild",
        Channel := some channel, Guild := some guild, Message := some message,
        Operator := some operator, User := none }
    let event :=
      match messageDelete.Message.Author with
      | some author =>
        { event with User := some { Id := author.ID, Name := author.Username,
                                    Avatar := author.Avatar, IsBot := author.Bot } }
      | none => event
    Run.done { err := p.BroadcastEvent event, broadcast := some event }

/-- The method `ProcessMessageDelete`. -/
def ProcessMessageDelete (p : Processor) (payload : Payload) (data : DeleteData) :
    Run Processed :=
  match data with
  | DeleteData.MessageDeleteData v => processDelete p payload v ChannelType.ChannelTypeText
  | DeleteData.PublicMessageDeleteData v =>
    processDelete p payload v ChannelType.ChannelTypeText
  | DeleteData.DirectMessageDeleteData v =>
    processDelete p payload v ChannelType.ChannelTypeDirect
  | DeleteData.other shown =>
    Run.done { err := some (GoError.other ("无法处理的消息撤回事件: " ++ shown)),
               broadcast := none }

/-- The delete payload behind a supported `data`. -/
def DeleteData.payload? : DeleteData → Option MessageDelete
  | DeleteData.MessageDeleteData v => some v
  | DeleteData.PublicMessageDeleteData v => some v
  | DeleteData.DirectMessageDeleteData v => some v
  | DeleteData.other _ => none

/-- The channel type the type switch of `ProcessMessageDelete` assigns. -/
def DeleteData.channelType : DeleteData → ChannelType
  | DeleteData.DirectMessageDeleteData _ => ChannelType.ChannelTypeDirect
  | _ => ChannelType.ChannelTypeText

/-- The one way `printMessageDeleteEvent` reads a missing author: there is no author,
and there is a member with a nick. -/
def nickWithoutAuthor (data : MessageDelete) : Bool :=
  match data.Message.Author, data.Message.Member with
  | none, some member => decide (member.Nick ≠ "")
  | _, _ => false

/-! ## Message conversion (`server/httpapi/message_create.go`) -/

/-- What `convertDtoMessageToMessage` calls outside its file: the trimmed text of
`ConvertToMessageContent`, `GetDirectChannelGuild`, and `Timestamp.Time` followed by
`UnixMilli` (`none` when the time stamp does not parse). -/
structure Converter where
  content : DtoMessage → String
  GetDirectChannelGuild : String → String
  unixMilli : String → Option Int

/-- The assignment `guildMember.JoinedAt = ...`: a nil dereference when `guildMember`
is nil. -/
def setJoinedAt (guildMember : Option GuildMember) (joinedAt : Int) :
    Run (Option GuildMember) :=
  match guildMember with
  | none => Run.panic
  | some g => Run.done (some { g with JoinedAt := joinedAt })

/-- The user record built from `dtoMessage.Author`: a nil dereference when there is no
author. -/
def userOfAuthor (dtoMessage : DtoMessage) : Run User :=
  match dtoMessage.Author with
  | none => Run.panic
  | some author =>
    Run.done { Id := author.ID, Name := author.Username, Avatar := author.Avatar,
               IsBot := author.Bot }

/-- The member record the two branches fill once they decided to build one: the nick of
the member when there is a member, the avatar of the author when there is an author. -/
def newGuildMember (dtoMessage : DtoMessage) : GuildMember :=
  { Nick := match dtoMessage.Member with
            | some member => member.Nick
            | none => "",
    Avatar := match dtoMessage.Author with
              | some author => author.Avatar
              | none => "",
    JoinedAt := 0 }

/-- The last statements of `convertDtoMessageToMessage`: the creation time. -/
def withCreateAt (c : Converter) (dtoMessage : DtoMessage) (message : SatoriMessage) :
    Run (Option SatoriMessage × Option GoError) :=
  match c.unixMilli dtoMessage.Timestamp with
  | none => Run.done (none, some (GoError.other "parsing time"))
  | some t => Run.done (some { message with CreateAt := t }, none)

/-- The statements both member-carrying branches share after `guildMember` is set: the
user record, the join time when there is a member, and the four assignments. -/
def withMember (c : Converter) (dtoMessage : DtoMessage) (message : SatoriMessage)
    (channel : Channel) (guild : Guild) (guildMember : Option GuildMember) :
    Run (Option SatoriMessage × Option GoError) :=
  match userOfAuthor dtoMessage with
  | Run.panic => Run.panic
  | Run.done user =>
    match dtoMessage.Member with
    | some member =>
      match c.unixMilli member.JoinedAt with
      | none => Run.done (none, some (GoError.other "parsing time"))
      | some joined =>
        match setJoinedAt guildMember joined with
        | Run.panic => Run.panic
        | Run.done guildMember1 =>
          withCreateAt c dtoMessage
            { message with Channel := some channel, Guild := some guild,
                           Member := guildMember1, User := some user }
    | none =>
      withCreateAt c dtoMessage
        { message with Channel := some channel, Guild := some guild,
                       Member := guildMember, User := some user }

/-- The function `convertDtoMessageToMessage`: a panic, or the message and the error. In
the guild-channel branch `guildMember` is built when `Member != nil`; in the group
branch it is built when `Member == nil`. -/
def convertDtoMessageToMessage (c : Converter) (dtoMessage : DtoMessage) :
    Run (Option SatoriMessage × Option GoError) :=
  let message : SatoriMessage :=
    { Id := dtoMessage.ID, Content := c.content dtoMessage, Channel := none, Guild := none,
      Member := none, User := none, CreateAt := 0, UpdateAt := 0 }
  if dtoMessage.ChannelID ≠ "" then
    let guildId := c.GetDirectChannelGuild dtoMessage.ChannelID
    let channelType :=
      if guildId = "" then ChannelType.ChannelTypeText else ChannelType.ChannelTypeDirect
    let channel : Channel := { Id := dtoMessage.ChannelID, Type_ := channelType }
    let guild : Guild := { Id := dtoMessage.GuildID }
    let guildMember : Option GuildMember :=
      if dtoMessage.Member ≠ none then some (newGuildMember dtoMessage) else none
    withMember c dtoMessage message channel guild guildMember
  else if dtoMessage.GroupID ≠ "" then
    let channel : Channel :=
      { Id := dtoMessage.GroupID, Type_ := ChannelType.ChannelTypeText }
    let guild : Guild := { Id := dtoMessage.GroupID }
    let guildMember : Option GuildMember :=
      if dtoMessage.Member = none then some (newGuildMember dtoMessage) else none
    withMember c dtoMessage message channel guild guildMember
  else
    match dtoMessage.Author with
    | none => Run.panic
    | some author =>
      let channel : Channel := { Id := author.ID, Type_ := ChannelType.ChannelTypeDirect }
      let user : User :=
        { Id := author.ID, Name := author.Username, Avatar := author.Avatar,
          IsBot := author.Bot }
      withCreateAt c dtoMessage { message with Channel := some channel, User := some user }

/-! ## Example data -/

/-- An event with the given sequence number. -/
def eventAt (n : Nat) : Event := { Sn := n, Type_ := "message-created", Timestamp := 0 }

/-- The events numbered 0 to 1000: one more than the queue keeps. -/
def events1001 : List Event := (List.range 1001).map eventAt

/-- A queue holding the events numbered 1, 2 and 3. -/
def queue123 : EventQueue := { Events := [eventAt 1, eventAt 2, eventAt 3] }

/-- Three push sessions. -/
def ws1 : WebSocket := { Addr := 1, IP := "10.0.0.1" }

/-- The second push session. -/
def ws2 : WebSocket := { Addr := 2, IP := "10.0.0.2" }

/-- The third push session. -/
def ws3 : WebSocket := { Addr := 3, IP := "10.0.0.3" }

/-- Four callback sinks. -/
def wh1 : WebHook := { Addr := 1, URL := "http://a/hook" }

/-- The second callback sink. -/
def wh2 : WebHook := { Addr := 2, URL := "http://b/hook" }

/-- The third callback sink. -/
def wh3 : WebHook := { Addr := 3, URL := "http://c/hook" }

/-- The fourth callback sink. -/
def wh4 : WebHook := { Addr := 4, URL := "http://d/hook" }

/-- A server with three push sessions and four callback sinks. -/
def server34 : Server :=
  { websockets := [some ws1, some ws2, some ws3],
    webhooks := [some wh1, some wh2, some wh3, some wh4],
    conf := { Version := 1 },
    events := NewEventQueue }

/-- Delivery outcomes: the second push session fails; the second sink answers
unauthorized, the third answers with a server error, the fourth cannot be reached. -/
def outcomes34 : Clients :=
  { wsPostEvent := fun ws _ => if ws = some ws2 then some (GoError.other "broken pipe") else none,
    whPostEvent := fun wh _ =>
      if wh = wh2 then some GoError.ErrUnauthorized
      else if wh = wh3 then some GoError.ErrServerError
      else if wh = wh4 then some (GoError.other "connection refused")
      else none }

/-- A finishing order for one round on `server34`. -/
def sched34 : Schedule := { wsOrder := [2, 0, 1], whOrder := [3, 1, 0, 2] }

/-- The message with the given id, as `demoGob` reads it back. -/
def msg (id : String) : Message := { Id := ascii id, Content := ascii "hi", CreateAt := 0, UpdateAt := 0 }

/-- The store after saving the given messages, in this order, to one channel of a
store that was started empty. -/
def savedAll (gob : Gob) (msgs : List Message) (channelId channelType : Bytes) :
    Option MessageDB :=
  msgs.foldl (fun inst m => (SaveMessage gob inst m channelId channelType).1)
    (some { DB := [], limit := 0 })

/-- The opened store `savedAll` gives. -/
def savedDB (gob : Gob) (msgs : List Message) (channelId channelType : Bytes) : MessageDB :=
  match savedAll gob msgs channelId channelType with
  | some mdb => mdb
  | none => { DB := [], limit := 0 }

/-- The store of the pagination example: `m1` to `m5` saved in ascending id order to
the channel `c1` of scope `text`. -/
def store5 : MessageDB :=
  savedDB demoGob [msg "m1", msg "m2", msg "m3", msg "m4", msg "m5"] (ascii "c1") (ascii "text")

/-- A store holding only `m1`, `m3` and `m5` in the channel `c1` of scope `text`. -/
def store135 : MessageDB :=
  savedDB demoGob [msg "m1", msg "m3", msg "m5"] (ascii "c1") (ascii "text")

/-- A store holding a message with the empty id next to `m1` and `m2`. -/
def storeEmptyId : MessageDB :=
  savedDB demoGob [msg "", msg "m1", msg "m2"] (ascii "c1") (ascii "text")

/-- The test that decides `HoldsOnly`. -/
def holdsOnlyCheck (gob : Gob) (db : DB) (channelId channelType : Bytes) : Bool :=
  db.all (fun e =>
    match gob.Decode e.2 with
    | some m => decide (e.1 = messageKey channelType channelId m.Id)
    | none => false)

/-- The store after saving further messages to a channel of a store. -/
def savedTo (gob : Gob) (inst : Option MessageDB) (msgs : List Message)
    (channelId channelType : Bytes) : Option MessageDB :=
  msgs.foldl (fun inst m => (SaveMessage gob inst m channelId channelType).1) inst

/-- The opened store behind an instance. -/
def opened (inst : Option MessageDB) : MessageDB :=
  match inst with
  | some mdb => mdb
  | none => { DB := [], limit := 0 }

/-- A store with two channels of scope `text`: `m1` and `m3` saved to the channel `12`,
`m9` saved to the channel `123`. -/
def storeTwoChannels : MessageDB :=
  opened (savedTo demoGob
    (savedAll demoGob [msg "m1", msg "m3"] (ascii "12") (ascii "text"))
    [msg "m9"] (ascii "123") (ascii "text"))

/-- The store of `m1` to `m5` with the record of `m2` overwritten by bytes that do not
decode. -/
def storeCorrupt : MessageDB :=
  { store5 with DB := store5.DB.Put (messageKey (ascii "text") (ascii "c1") (ascii "m2")) [] }

/-- The store `storeTwoChannels` with a record that does not decode added to the
channel `12` under the id `m2`. -/
def storeTwoChannelsCorrupt : MessageDB :=
  { storeTwoChannels with
    DB := storeTwoChannels.DB.Put (messageKey (ascii "text") (ascii "12") (ascii "m2")) [] }

/-- The event with sequence number 1 and another type than `eventAt 1`. -/
def deleted1 : Event := { Sn := 1, Type_ := "message-deleted", Timestamp := 0 }

/-- A server without clients whose event log holds the event numbered 1. -/
def serverLog1 : Server :=
  { websockets := [], webhooks := [], conf := { Version := 1 },
    events := { Events := [eventAt 1] } }

/-- A server without clients whose event log holds the sequence numbers 5, 7, 5. -/
def serverLog575 : Server :=
  { websockets := [], webhooks := [], conf := { Version := 1 },
    events := { Events := [eventAt 5, eventAt 7, eventAt 5] } }

/-- The schedule of a round without clients. -/
def schedNone : Schedule := { wsOrder := [], whOrder := [] }

/-- Delivery outcomes of a later round: every client accepts. -/
def outcomesOk : Clients :=
  { wsPostEvent := fun _ _ => none, whPostEvent := fun _ _ => none }

/-- The second round on `server34` after the outcomes `outcomes34`: two push sessions
and two callback sinks are left, and every client accepts. -/
def round2 : Round :=
  { event := eventAt 6, env := outcomesOk, sched := { wsOrder := [1, 0], whOrder := [0, 1] } }

/-- The operator of the example deletions. -/
def opUser : DtoUser := { ID := "u1", Username := "op", Avatar := "a1", Bot := false }

/-- The author of the example messages. -/
def author2 : DtoUser := { ID := "u2", Username := "ann", Avatar := "a2", Bot := false }

/-- A deleted message with an author and a member with a nick. -/
def deletedByAuthor : MessageDelete :=
  { Message := { ID := "m1", ChannelID := "c1", GuildID := "g1", GroupID := "",
                 Timestamp := "", Author := some author2,
                 Member := some { Nick := "nick", JoinedAt := "" } },
    OpUser := opUser }

/-- A deleted message without author and without member. -/
def deletedNoAuthor : MessageDelete :=
  { Message := { ID := "m1", ChannelID := "c1", GuildID := "g1", GroupID := "",
                 Timestamp := "", Author := none, Member := none },
    OpUser := opUser }

/-- A deleted message without author whose member has a nick. -/
def deletedNickNoAuthor : MessageDelete :=
  { Message := { ID := "m1", ChannelID := "c1", GuildID := "g1", GroupID := "",
                 Timestamp := "", Author := none,
                 Member := some { Nick := "nick", JoinedAt := "" } },
    OpUser := opUser }

/-- A processor whose event ids are all 7, at time 1000, and whose broadcast succeeds. -/
def processor7 : Processor :=
  { SaveEventID := fun _ => 7, now := 1000, buildNonLoginEventLogin := fun platform => platform,
    BroadcastEvent := fun _ => none }

/-- A payload of the type `MESSAGE_DELETE`. -/
def payloadDelete : Payload := { Type_ := EventMessageDelete, ID := "e7" }

/-- A converter for which every time stamp parses to 5000 and no channel is a direct
channel. -/
def converter5000 : Converter :=
  { content := fun _ => "hello", GetDirectChannelGuild := fun _ => "",
    unixMilli := fun _ => some 5000 }

/-- A group message (no channel id, a group id) with an author and a member. -/
def groupMessage : DtoMessage :=
  { ID := "m1", ChannelID := "", GuildID := "", GroupID := "grp1", Timestamp := "t",
    Author := some author2, Member := some { Nick := "nick", JoinedAt := "t0" } }

/-- The same message sent to a guild channel. -/
def channelMessage : DtoMessage :=
  { ID := "m1", ChannelID := "c1", GuildID := "g1", GroupID := "", Timestamp := "t",
    Author := some author2, Member := some { Nick := "nick", JoinedAt := "t0" } }

/-- A payload of the type `PUBLIC_MESSAGE_DELETE`. -/
def payloadPublicDelete : Payload := { Type_ := EventPublicMessageDelete, ID := "e8" }

/-- A payload of the type `DIRECT_MESSAGE_DELETE`. -/
def payloadDirectDelete : Payload := { Type_ := EventDirectMessageDelete, ID := "e9" }

/-! ## Event queue: lemmas -/

theorem evictLoop_events (fuel : Nat) (q : EventQueue)
    (h : q.Events.length < fuel + 999) :
    (evictLoop fuel q).Events = q.Events.drop (q.Events.length - 999) := by
  induction fuel generalizing q with
  | zero =>
    have h0 : q.Events.length - 999 = 0 := by omega
    simp [evictLoop, h0]
  | succ n ih =>
    unfold evictLoop
    by_cases hlt : q.Events.length < 1000
    · have h0 : q.Events.length - 999 = 0 := by omega
      simp [hlt, h0]
    · simp only [hlt, if_false]
      cases hq : q.Events with
      | nil => simp [hq] at hlt
      | cons e rest =>
        have hlen : rest.length + 1 = q.Events.length := by simp [hq]
        have hpop : (PopEvent q).2.Events = rest := by simp [PopEvent, hq]
        rw [ih _ (by rw [hpop]; omega), hpop]
        have h1 : (e :: rest).length - 999 = (rest.length - 999) + 1 := by
          simp only [List.length_cons]; omega
        rw [h1, List.drop_succ_cons]

theorem PushEvent_events (q : EventQueue) (event : Event) :
    (PushEvent q event).Events = q.Events.drop (q.Events.length - 999) ++ [event] := by
  unfold PushEvent
  simp only
  rw [evictLoop_events _ _ (by omega)]

theorem pushAll_events (events : List Event) (q : EventQueue)
    (hq : q.Events.length ≤ 1000) :
    (pushAll q events).Events =
      (q.Events ++ events).drop ((q.Events ++ events).length - 1000) := by
  induction events generalizing q with
  | nil =>
    have h0 : q.Events.length - 1000 = 0 := by omega
    simp [pushAll, h0]
  | cons e es ih =>
    have hstep : pushAll q (e :: es) = pushAll (PushEvent q e) es := rfl
    have hlen : (PushEvent q e).Events.length ≤ 1000 := by
      rw [PushEvent_events]; simp; omega
    rw [hstep, ih _ hlen, PushEvent_events]
    by_cases hfull : q.Events.length = 1000
    · cases hE : q.Events with
      | nil => simp [hE] at hfull
      | cons x xs =>
        have hxs : xs.length = 999 := by simp [hE] at hfull; omega
        have e1 : (x :: xs).length - 999 = 1 := by simp [hxs]
        rw [e1]
        have e2 : ((x :: xs) ++ e :: es).length - 1000 = (es.length) + 1 := by
          simp [hxs]
        have e3 : (List.drop 1 (x :: xs) ++ [e] ++ es).length - 1000 = es.length := by
          simp [hxs]; omega
        rw [e2, e3]
        simp
    · have h0 : q.Events.length - 999 = 0 := by omega
      rw [h0]
      simp

theorem resume_found (Sn : Int) (l acc : List Event) :
    l.foldl (resumeStep Sn) (acc, true) = (acc ++ l.filter (fun e => e.Sn ≠ Sn), true) := by
  induction l generalizing acc with
  | nil => simp
  | cons x xs ih =>
    simp only [List.foldl_cons]
    by_cases hx : x.Sn = Sn
    · simp [resumeStep, hx, ih]
    · simp [resumeStep, hx, ih]

theorem resume_absent (Sn : Int) (l acc : List Event) (h : ∀ e ∈ l, e.Sn ≠ Sn) :
    l.foldl (resumeStep Sn) (acc, false) = (acc, false) := by
  induction l generalizing acc with
  | nil => simp
  | cons x xs ih =>
    have hx : x.Sn ≠ Sn := h x (by simp)
    simp only [List.foldl_cons]
    have : resumeStep Sn (acc, false) x = (acc, false) := by simp [resumeStep, hx]
    rw [this]
    exact ih acc (fun e he => h e (by simp [he]))

theorem resume_present (Sn : Int) (l acc : List Event) (hs : SnIncreasing l)
    (hmem : ∃ e ∈ l, e.Sn = Sn) :
    (l.foldl (resumeStep Sn) (acc, false)).1 = acc ++ l.filter (fun e => Sn < e.Sn) ∧
    ∃ pre x, x.Sn = Sn ∧ l = pre ++ x :: l.filter (fun e => Sn < e.Sn) := by
  induction l generalizing acc with
  | nil => simp at hmem
  | cons x xs ih =>
    have hs2 : (∀ y ∈ xs, x.Sn < y.Sn) ∧ SnIncreasing xs := by
      simpa [SnIncreasing] using hs
    simp only [List.foldl_cons]
    by_cases hx : x.Sn = Sn
    · have hst : resumeStep Sn (acc, false) x = (acc, true) := by simp [resumeStep, hx]
      have hgt : ∀ y ∈ xs, Sn < y.Sn := fun y hy => hx ▸ hs2.1 y hy
      have hf1 : xs.filter (fun e => e.Sn ≠ Sn) = xs := by
        apply List.filter_eq_self.mpr
        intro y hy
        have := hgt y hy
        simp; omega
      have hf2 : xs.filter (fun e => Sn < e.Sn) = xs := by
        apply List.filter_eq_self.mpr
        intro y hy
        simpa using hgt y hy
      have hf3 : (x :: xs).filter (fun e => Sn < e.Sn) = xs := by
        rw [List.filter_cons]; simp [hx, hf2]
      rw [hst, resume_found, hf1, hf3]
      exact ⟨rfl, [], x, hx, rfl⟩
    · have hst : resumeStep Sn (acc, false) x = (acc, false) := by simp [resumeStep, hx]
      obtain ⟨e, he, heq⟩ := hmem
      have he2 : e ∈ xs := by
        rcases List.mem_cons.mp he with h | h
        · exact absurd (h ▸ heq) hx
        · exact h
      have hlt : x.Sn < Sn := heq ▸ hs2.1 e he2
      have hf3 : (x :: xs).filter (fun e => Sn < e.Sn) = xs.filter (fun e => Sn < e.Sn) := by
        rw [List.filter_cons]
        have : ¬ (Sn < x.Sn) := by omega
        simp [this]
      obtain ⟨h1, pre, y, hy, hsplit⟩ := ih acc hs2.2 ⟨e, he2, heq⟩
      rw [hst, hf3]
      refine ⟨h1, x :: pre, y, hy, ?_⟩
      rw [List.cons_append, ← hsplit]

/-! ## Event queue: properties -/

/-- C1: after more than 1000 pushes of events with strictly increasing sn onto a new
queue, the queue holds exactly 1000 events, namely the last 1000 pushed; their sn
strictly increase and each is above the sn of every event that is gone. -/
theorem pushAll_keeps_last_1000 (events : List Event) (hN : 1000 < events.length)
    (hs : SnIncreasing events) :
    (pushAll NewEventQueue events).Events.length = 1000 ∧
    (pushAll NewEventQueue events).Events = events.drop (events.length - 1000) ∧
    SnIncreasing (pushAll NewEventQueue events).Events ∧
    (∀ x ∈ events.take (events.length - 1000),
      ∀ y ∈ (pushAll NewEventQueue events).Events, x.Sn < y.Sn) := by
  have hE : (pushAll NewEventQueue events).Events = events.drop (events.length - 1000) := by
    rw [pushAll_events _ _ (by simp [NewEventQueue])]
    simp [NewEventQueue]
  rw [hE]
  refine ⟨by simp; omega, rfl, ?_, ?_⟩
  · exact List.Pairwise.sublist (List.drop_sublist _ _) hs
  · intro x hx y hy
    have hsplit : events.take (events.length - 1000) ++ events.drop (events.length - 1000)
        = events := List.take_append_drop _ _
    have hp : SnIncreasing (events.take (events.length - 1000) ++
        events.drop (events.length - 1000)) := by rw [hsplit]; exact hs
    exact (List.pairwise_append.mp hp).2.2 x hx y hy

theorem events1001_increasing : SnIncreasing events1001 := by
  unfold SnIncreasing events1001
  rw [List.pairwise_map]
  refine List.Pairwise.imp ?_ (List.pairwise_lt_range 1001)
  intro a b hab
  simp [eventAt]
  exact hab

/-- Witness of C1 at the events numbered 0 to 1000. -/
theorem pushAll_keeps_last_1000_witness :
    1000 < events1001.length ∧ SnIncreasing events1001 ∧
    (pushAll NewEventQueue events1001).Events.length = 1000 ∧
    (pushAll NewEventQueue events1001).Events = events1001.drop (events1001.length - 1000) :=
  have h := pushAll_keeps_last_1000 events1001 (by simp [events1001]) events1001_increasing
  ⟨by simp [events1001], events1001_increasing, h.1, h.2.1⟩

/-- C2: on a queue with strictly increasing sn, `ResumeEvents` of a stored sn returns
exactly the stored events with a greater sn, which is the part of the queue after the
event with that sn, in storage order, and the queue is as before. -/
theorem ResumeEvents_present (q : EventQueue) (Sn : Int) (hs : SnIncreasing q.Events)
    (hmem : ∃ e ∈ q.Events, e.Sn = Sn) :
    (ResumeEvents q Sn).1 = q.Events.filter (fun e => Sn < e.Sn) ∧
    (∃ pre x, x.Sn = Sn ∧ q.Events = pre ++ x :: (ResumeEvents q Sn).1) ∧
    (ResumeEvents q Sn).2 = q := by
  have h := resume_present Sn q.Events [] hs hmem
  have h1 : (ResumeEvents q Sn).1 = q.Events.filter (fun e => Sn < e.Sn) := by
    simpa [ResumeEvents] using h.1
  refine ⟨h1, ?_, rfl⟩
  rw [h1]
  exact h.2

/-- Witness of C2: resuming after sn 2 on the queue of events 1, 2, 3. -/
theorem ResumeEvents_present_witness :
    SnIncreasing queue123.Events ∧ (∃ e ∈ queue123.Events, e.Sn = 2) ∧
    (ResumeEvents queue123 2).1 = queue123.Events.filter (fun e => 2 < e.Sn) ∧
    (ResumeEvents queue123 2).2 = queue123 :=
  have hs : SnIncreasing queue123.Events := by decide
  have hm : ∃ e ∈ queue123.Events, e.Sn = 2 := ⟨eventAt 2, by decide, by decide⟩
  have h := ResumeEvents_present queue123 2 hs hm
  ⟨hs, hm, h.1, h.2.2⟩

/-- C3: `ResumeEvents` of an sn that no stored event has returns the empty sequence
(and the queue is as before). -/
theorem ResumeEvents_absent (q : EventQueue) (Sn : Int) (h : ∀ e ∈ q.Events, e.Sn ≠ Sn) :
    (ResumeEvents q Sn).1 = [] ∧ (ResumeEvents q Sn).2 = q := by
  refine ⟨?_, rfl⟩
  simp [ResumeEvents, resume_absent Sn q.Events [] h]

/-- Witness of C3: resuming after sn 7 on the queue of events 1, 2, 3. -/
theorem ResumeEvents_absent_witness :
    (∀ e ∈ queue123.Events, e.Sn ≠ 7) ∧ (ResumeEvents queue123 7).1 = [] :=
  have h : ∀ e ∈ queue123.Events, e.Sn ≠ 7 := by decide
  ⟨h, (ResumeEvents_absent queue123 7 h).1⟩

/-! ## Fan-out: lemmas -/

theorem range_filterMap_getElem? {β : Type} (L : List β) :
    (List.range L.length).filterMap (fun i => L[i]?) = L := by
  induction L using List.reverseRecOn with
  | nil => simp
  | append_singleton xs x ih =>
    rw [List.length_append, List.length_singleton, List.range_succ, List.filterMap_append]
    have h1 : (List.range xs.length).filterMap (fun i => (xs ++ [x])[i]?) =
        (List.range xs.length).filterMap (fun i => xs[i]?) := by
      apply List.filterMap_congr
      intro i hi
      rw [List.mem_range] at hi
      exact List.getElem?_append_left hi
    rw [h1, ih]
    simp

theorem finished_perm {α β : Type} (task : α → β) (clients : List α) (order : List Nat)
    (h : order.Perm (List.range clients.length)) :
    (finished task clients order).Perm (clients.map task) := by
  unfold finished
  have h2 := List.Perm.filterMap (fun i => (clients.map task)[i]?) h
  have h3 := range_filterMap_getElem? (clients.map task)
  rw [List.length_map] at h3
  rw [h3] at h2
  exact h2

theorem wsPosted_wsTasks (env : Clients) (event : Event) (W : List (Option WebSocket)) :
    wsPosted ((W.map (wsTask env event)).map Prod.snd).flatten = W.map (fun ws => (ws, event)) := by
  induction W with
  | nil => rfl
  | cons w ws ih =>
    simp only [List.map_cons, List.flatten_cons, wsPosted, List.filterMap_append] at ih ⊢
    rw [ih]
    unfold wsTask
    cases env.wsPostEvent w event <;> simp

theorem wsClosed_wsTasks (env : Clients) (event : Event) (W : List (Option WebSocket)) :
    wsClosed ((W.map (wsTask env event)).map Prod.snd).flatten =
      W.filter (fun ws => (env.wsPostEvent ws event).isSome) := by
  induction W with
  | nil => rfl
  | cons w ws ih =>
    simp only [List.map_cons, List.flatten_cons, wsClosed, List.filterMap_append] at ih ⊢
    rw [ih]
    unfold wsTask
    cases h : env.wsPostEvent w event <;> simp [List.filter_cons, h]

theorem whPosted_wsTasks (env : Clients) (event : Event) (W : List (Option WebSocket)) :
    whPosted ((W.map (wsTask env event)).map Prod.snd).flatten = [] := by
  induction W with
  | nil => rfl
  | cons w ws ih =>
    simp only [List.map_cons, List.flatten_cons, whPosted, List.filterMap_append] at ih ⊢
    rw [ih]
    unfold wsTask
    cases env.wsPostEvent w event <;> simp

theorem wsPosted_whTasks (env : Clients) (event : Event) (H : List (Option WebHook)) :
    wsPosted ((H.map (whTask env event)).map Prod.snd).flatten = [] := by
  induction H with
  | nil => rfl
  | cons w ws ih =>
    simp only [List.map_cons, List.flatten_cons, wsPosted, List.filterMap_append] at ih ⊢
    rw [ih]
    unfold whTask
    cases w with
    | none => simp
    | some w =>
      simp only
      split <;> simp

theorem wsClosed_whTasks (env : Clients) (event : Event) (H : List (Option WebHook)) :
    wsClosed ((H.map (whTask env event)).map Prod.snd).flatten = [] := by
  induction H with
  | nil => rfl
  | cons w ws ih =>
    simp only [List.map_cons, List.flatten_cons, wsClosed, List.filterMap_append] at ih ⊢
    rw [ih]
    unfold whTask
    cases w with
    | none => simp
    | some w =>
      simp only
      split <;> simp

theorem collect_wsTasks (env : Clients) (event : Event) (W : List (Option WebSocket)) :
    collect ((W.map (wsTask env event)).map Prod.fst) =
      W.filter (fun ws => ws.isSome && (env.wsPostEvent ws event).isNone) := by
  induction W with
  | nil => rfl
  | cons w ws ih =>
    simp only [collect, List.map_cons] at ih ⊢
    rw [List.filter_cons, List.filter_cons, ih]
    unfold wsTask
    cases h : env.wsPostEvent w event <;> cases w <;> simp

theorem whTask_fst (env : Clients) (event : Event) (wh : Option WebHook) :
    (whTask env event wh).1 = if whKept env event wh then wh else none := by
  cases wh with
  | none => rfl
  | some w =>
    unfold whTask whKept
    cases h : env.whPostEvent w event with
    | none => simp [h]
    | some e => cases e <;> simp [h]

theorem collect_whTasks (env : Clients) (event : Event) (H : List (Option WebHook)) :
    collect ((H.map (whTask env event)).map Prod.fst) = H.filter (whKept env event) := by
  induction H with
  | nil => rfl
  | cons w ws ih =>
    simp only [collect, List.map_cons] at ih ⊢
    rw [List.filter_cons, List.filter_cons, ih, whTask_fst]
    by_cases hk : whKept env event w = true
    · have hw : w.isSome = true := by
        cases w with
        | none => simp [whKept] at hk
        | some w => rfl
      simp [hk, hw]
    · simp [hk]

/-! ## Fan-out: properties -/

/-- C4: in one `Send` round, whatever the delivery outcomes and the finishing order,
`PostEvent` is called with the event once per registered push session and on nothing
else, `Close` is called on exactly the sessions whose `PostEvent` returned an error,
and the push-session registry afterwards holds exactly the (non-nil) sessions whose
`PostEvent` returned no error. -/
theorem Send_push_sessions (server : Server) (event : Event) (env : Clients)
    (sched : Schedule) (hf : sched.Fair server) :
    (wsPosted (Send server event env sched).2).Perm
      (server.websockets.map (fun ws => (ws, event))) ∧
    (wsClosed (Send server event env sched).2).Perm
      (server.websockets.filter (fun ws => (env.wsPostEvent ws event).isSome)) ∧
    (Send server event env sched).1.websockets.Perm
      (server.websockets.filter
        (fun ws => ws.isSome && (env.wsPostEvent ws event).isNone)) := by
  have hws := finished_perm (wsTask env event) server.websockets sched.wsOrder hf.1
  have hwh := finished_perm (whTask env event) server.webhooks sched.whOrder hf.2
  have hcalls : (Send server event env sched).2.Perm
      (((server.websockets.map (wsTask env event)).map Prod.snd).flatten ++
       ((server.webhooks.map (whTask env event)).map Prod.snd).flatten) :=
    List.Perm.append (List.Perm.flatten (List.Perm.map _ hws))
      (List.Perm.flatten (List.Perm.map _ hwh))
  refine ⟨?_, ?_, ?_⟩
  · have h := List.Perm.filterMap (fun c =>
      match c with
      | Call.wsPostEvent ws e => some (ws, e)
      | _ => none) hcalls
    rw [List.filterMap_append] at h
    have e1 := wsPosted_wsTasks env event server.websockets
    have e2 := wsPosted_whTasks env event server.webhooks
    unfold wsPosted at e1 e2 ⊢
    rw [e1, e2, List.append_nil] at h
    exact h
  · have h := List.Perm.filterMap (fun c =>
      match c with
      | Call.wsClose ws => some ws
      | _ => none) hcalls
    rw [List.filterMap_append] at h
    have e1 := wsClosed_wsTasks env event server.websockets
    have e2 := wsClosed_whTasks env event server.webhooks
    unfold wsClosed at e1 e2 ⊢
    rw [e1, e2, List.append_nil] at h
    exact h
  · have h : (collect ((finished (wsTask env event) server.websockets sched.wsOrder).map
        Prod.fst)).Perm (collect ((server.websockets.map (wsTask env event)).map Prod.fst)) :=
      List.Perm.filter _ (List.Perm.map _ hws)
    rw [collect_wsTasks] at h
    exact h

/-- Witness of C4: three push sessions, the second one failing. -/
theorem Send_push_sessions_witness :
    sched34.Fair server34 ∧
    (Send server34 (eventAt 5) outcomes34 sched34).1.websockets.Perm
      (server34.websockets.filter
        (fun ws => ws.isSome && (outcomes34.wsPostEvent ws (eventAt 5)).isNone)) ∧
    (Send server34 (eventAt 5) outcomes34 sched34).1.websockets = [some ws3, some ws1] :=
  have hf : sched34.Fair server34 := by decide
  ⟨hf, (Send_push_sessions server34 (eventAt 5) outcomes34 sched34 hf).2.2, by decide⟩

/-- C5: after one `Send` round the callback-sink registry holds exactly the sinks whose
`PostEvent` returned success or `ErrServerError`; a sink whose `PostEvent` returned
`ErrUnauthorized` or any other error is gone. -/
theorem Send_callback_sinks (server : Server) (event : Event) (env : Clients)
    (sched : Schedule) (hf : sched.Fair server) :
    (Send server event env sched).1.webhooks.Perm
      (server.webhooks.filter (whKept env event)) ∧
    (∀ wh : Option WebHook, wh ∈ (Send server event env sched).1.webhooks ↔
      ∃ w, wh = some w ∧ some w ∈ server.webhooks ∧
        (env.whPostEvent w event = none ∨
         env.whPostEvent w event = some GoError.ErrServerError)) := by
  have hwh := finished_perm (whTask env event) server.webhooks sched.whOrder hf.2
  have h : (collect ((finished (whTask env event) server.webhooks sched.whOrder).map
      Prod.fst)).Perm (collect ((server.webhooks.map (whTask env event)).map Prod.fst)) :=
    List.Perm.filter _ (List.Perm.map _ hwh)
  rw [collect_whTasks] at h
  have hP : (Send server event env sched).1.webhooks.Perm
      (server.webhooks.filter (whKept env event)) := h
  refine ⟨hP, ?_⟩
  intro wh
  rw [hP.mem_iff, List.mem_filter]
  constructor
  · rintro ⟨hm, hk⟩
    cases wh with
    | none => simp [whKept] at hk
    | some w =>
      refine ⟨w, rfl, hm, ?_⟩
      unfold whKept at hk
      simp only at hk
      split at hk <;> simp_all
  · rintro ⟨w, rfl, hm, ho⟩
    refine ⟨hm, ?_⟩
    unfold whKept
    rcases ho with ho | ho <;> simp [ho]

/-- Witness of C5: four sinks answering success, unauthorized, server error and a
transport error. -/
theorem Send_callback_sinks_witness :
    sched34.Fair server34 ∧
    (Send server34 (eventAt 5) outcomes34 sched34).1.webhooks.Perm
      (server34.webhooks.filter (whKept outcomes34 (eventAt 5))) ∧
    (Send server34 (eventAt 5) outcomes34 sched34).1.webhooks = [some wh1, some wh3] :=
  have hf : sched34.Fair server34 := by decide
  ⟨hf, (Send_callback_sinks server34 (eventAt 5) outcomes34 sched34 hf).1, by decide⟩

/-! ## Byte order: lemmas -/

theorem bytesLt_irrefl (a : Bytes) : bytesLt a a = false := by
  induction a with
  | nil => rfl
  | cons x xs ih => simp [bytesLt, ih]

theorem bytesLt_trans {a b c : Bytes} (hab : bytesLt a b = true) (hbc : bytesLt b c = true) :
    bytesLt a c = true := by
  induction a generalizing b c with
  | nil =>
    cases b with
    | nil => simp [bytesLt] at hab
    | cons y ys =>
      cases c with
      | nil => simp [bytesLt] at hbc
      | cons z zs => simp [bytesLt]
  | cons x xs ih =>
    cases b with
    | nil => simp [bytesLt] at hab
    | cons y ys =>
      cases c with
      | nil => simp [bytesLt] at hbc
      | cons z zs =>
        simp only [bytesLt, Bool.or_eq_true, Bool.and_eq_true, decide_eq_true_eq] at hab hbc ⊢
        rcases hab with h1 | ⟨h1, h1t⟩
        · rcases hbc with h2 | ⟨h2, _⟩
          · left; omega
          · left; omega
        · rcases hbc with h2 | ⟨h2, h2t⟩
          · left; omega
          · right; exact ⟨by omega, ih h1t h2t⟩

theorem bytesLt_asymm {a b : Bytes} (hab : bytesLt a b = true) : bytesLt b a = false := by
  cases h : bytesLt b a with
  | false => rfl
  | true =>
    have := bytesLt_trans hab h
    rw [bytesLt_irrefl] at this
    exact absurd this (by simp)

theorem bytesLt_total {a b : Bytes} (hab : bytesLt a b = false) (hba : bytesLt b a = false) :
    a = b := by
  induction a generalizing b with
  | nil =>
    cases b with
    | nil => rfl
    | cons y ys => simp [bytesLt] at hab
  | cons x xs ih =>
    cases b with
    | nil => simp [bytesLt] at hba
    | cons y ys =>
      simp only [bytesLt, Bool.or_eq_false_iff, Bool.and_eq_false_imp, decide_eq_false_iff_not,
        decide_eq_true_eq] at hab hba
      have hxy : x = y := by omega
      subst hxy
      rw [ih (hab.2 rfl) (hba.2 rfl)]

theorem bytesLt_append_left (p a b : Bytes) : bytesLt (p ++ a) (p ++ b) = bytesLt a b := by
  induction p with
  | nil => rfl
  | cons x xs ih => simp [bytesLt, ih]

/-! ## Iterator and scan loops: lemmas -/

theorem Prev_entries (it : Iterator) : it.Prev.2.entries = it.entries := by
  cases it with
  | soi es => rfl
  | valid before cur after =>
    cases before with
    | nil => simp [Iterator.Prev, Iterator.entries]
    | cons p b => simp [Iterator.Prev, Iterator.entries]
  | eoi before =>
    cases before with
    | nil => simp [Iterator.Prev, Iterator.Last, Iterator.entries]
    | cons p b => simp [Iterator.Prev, Iterator.Last, Iterator.entries]

theorem Next_entries (it : Iterator) : it.Next.2.entries = it.entries := by
  cases it with
  | eoi before => rfl
  | valid before cur after =>
    cases after with
    | nil => simp [Iterator.Next, Iterator.entries]
    | cons n a => simp [Iterator.Next, Iterator.entries]
  | soi es =>
    cases es with
    | nil => simp [Iterator.Next, Iterator.First, Iterator.entries]
    | cons n a => simp [Iterator.Next, Iterator.First, Iterator.entries]

theorem Prev_cases (it : Iterator) :
    (it.behind = [] ∧ ∃ it1, it.Prev = (false, it1)) ∨
    (∃ p b it1, it.behind = p :: b ∧ it.Prev = (true, it1) ∧
      it1.Value = p.2 ∧ it1.Key = p.1 ∧ it1.behind = b) := by
  cases it with
  | soi es => exact Or.inl ⟨rfl, _, rfl⟩
  | valid before cur after =>
    cases before with
    | nil => exact Or.inl ⟨rfl, _, rfl⟩
    | cons p b => exact Or.inr ⟨p, b, _, rfl, rfl, rfl, rfl, rfl⟩
  | eoi before =>
    cases before with
    | nil => exact Or.inl ⟨rfl, _, rfl⟩
    | cons p b =>
      refine Or.inr ⟨p, b, Iterator.valid b p [], rfl, ?_, rfl, rfl, rfl⟩
      simp [Iterator.Prev, Iterator.Last, Iterator.entries]

theorem Next_cases (it : Iterator) :
    (it.ahead = [] ∧ ∃ it1, it.Next = (false, it1)) ∨
    (∃ n a it1, it.ahead = n :: a ∧ it.Next = (true, it1) ∧
      it1.Value = n.2 ∧ it1.Key = n.1 ∧ it1.ahead = a) := by
  cases it with
  | eoi before => exact Or.inl ⟨rfl, _, rfl⟩
  | valid before cur after =>
    cases after with
    | nil => exact Or.inl ⟨rfl, _, rfl⟩
    | cons n a => exact Or.inr ⟨n, a, _, rfl, rfl, rfl, rfl, rfl⟩
  | soi es =>
    cases es with
    | nil => exact Or.inl ⟨rfl, _, rfl⟩
    | cons n a => exact Or.inr ⟨n, a, Iterator.valid [] n a, rfl, rfl, rfl, rfl, rfl⟩

theorem keyed_cons_none (gob : Gob) (p : Entry) (b : List Entry) (h : gob.Decode p.2 = none) :
    keyed gob (p :: b) = keyed gob b := by
  simp [keyed, List.filterMap_cons, h]

theorem keyed_cons_some (gob : Gob) (p : Entry) (b : List Entry) (m : Message)
    (h : gob.Decode p.2 = some m) :
    keyed gob (p :: b) = (p.1, m) :: keyed gob b := by
  simp [keyed, List.filterMap_cons, h]

theorem prevLoop_spec (gob : Gob) (limit : Int) (fuel : Nat) (it : Iterator)
    (acc : List (Bytes × Message)) (hfuel : it.behind.length < fuel) :
    (prevLoop gob limit fuel it acc).2 =
      acc ++ (keyed gob it.behind).take (limit.toNat - acc.length) := by
  induction fuel generalizing it acc with
  | zero => omega
  | succ n ih =>
    unfold prevLoop
    rcases Prev_cases it with ⟨hb, it1, hp⟩ | ⟨p, b, it1, hb, hp, hv, hk, hb1⟩
    · rw [hp, hb]
      simp [keyed]
    · rw [hp, hb]
      simp only
      by_cases hlim : (acc.length : Int) ≥ limit
      · have h0 : limit.toNat - acc.length = 0 := by omega
        simp [hlim, h0]
      · simp only [hlim, if_false]
        have hfuel1 : it1.behind.length < n := by
          rw [hb1]; rw [hb] at hfuel; simp at hfuel; omega
        rw [hv, hk]
        cases hd : gob.Decode p.2 with
        | none =>
          simp only
          rw [ih it1 acc hfuel1, hb1, keyed_cons_none gob p b hd]
        | some m =>
          simp only
          rw [ih it1 _ hfuel1, hb1, keyed_cons_some gob p b m hd]
          have h1 : limit.toNat - acc.length = (limit.toNat - (acc ++ [(p.1, m)]).length) + 1 := by
            simp; omega
          rw [h1, List.take_succ_cons]
          simp

theorem nextLoop_spec (gob : Gob) (limit : Int) (fuel : Nat) (it : Iterator)
    (acc : List (Bytes × Message)) (hfuel : it.ahead.length < fuel) :
    (nextLoop gob limit fuel it acc).2 =
      acc ++ (keyed gob it.ahead).take (limit.toNat - acc.length) := by
  induction fuel generalizing it acc with
  | zero => omega
  | succ n ih =>
    unfold nextLoop
    rcases Next_cases it with ⟨hb, it1, hp⟩ | ⟨p, b, it1, hb, hp, hv, hk, hb1⟩
    · rw [hp, hb]
      simp [keyed]
    · rw [hp, hb]
      simp only
      by_cases hlim : (acc.length : Int) ≥ limit
      · have h0 : limit.toNat - acc.length = 0 := by omega
        simp [hlim, h0]
      · simp only [hlim, if_false]
        have hfuel1 : it1.ahead.length < n := by
          rw [hb1]; rw [hb] at hfuel; simp at hfuel; omega
        rw [hv, hk]
        cases hd : gob.Decode p.2 with
        | none =>
          simp only
          rw [ih it1 acc hfuel1, hb1, keyed_cons_none gob p b hd]
        | some m =>
          simp only
          rw [ih it1 _ hfuel1, hb1, keyed_cons_some gob p b m hd]
          have h1 : limit.toNat - acc.length = (limit.toNat - (acc ++ [(p.1, m)]).length) + 1 := by
            simp; omega
          rw [h1, List.take_succ_cons]
          simp

theorem prevLoop_entries (gob : Gob) (limit : Int) (fuel : Nat) (it : Iterator)
    (acc : List (Bytes × Message)) :
    (prevLoop gob limit fuel it acc).1.entries = it.entries := by
  induction fuel generalizing it acc with
  | zero => rfl
  | succ n ih =>
    unfold prevLoop
    have hE := Prev_entries it
    rcases hp : it.Prev with ⟨ok, it1⟩
    rw [hp] at hE
    cases ok with
    | false => exact hE
    | true =>
      simp only
      split
      · exact hE
      · split
        · rw [ih]; exact hE
        · rw [ih]; exact hE

theorem Seek_behind (it : Iterator) (key : Bytes) :
    (it.Seek key).2.behind = (it.entries.takeWhile (fun e => bytesLt e.1 key)).reverse := by
  unfold Iterator.Seek
  simp only
  split <;> rfl

theorem Seek_ahead (it : Iterator) (key : Bytes) :
    (it.Seek key).2.ahead = (it.entries.dropWhile (fun e => bytesLt e.1 key)).tail := by
  unfold Iterator.Seek
  simp only
  split
  · next h => rw [h]; rfl
  · next c a h => rw [h]; rfl

theorem Seek_congr (it it1 : Iterator) (key : Bytes) (h : it.entries = it1.entries) :
    it.Seek key = it1.Seek key := by
  unfold Iterator.Seek
  rw [h]

theorem Last_behind (it : Iterator) : it.Last.2.behind = it.entries.reverse.tail := by
  unfold Iterator.Last
  split
  · next h => rw [h]; rfl
  · next c b h => rw [h]; rfl

theorem Seek_entries (it : Iterator) (key : Bytes) :
    (it.Seek key).2.entries = it.entries := by
  have hsplit := List.takeWhile_append_dropWhile (fun e => bytesLt e.1 key) it.entries
  unfold Iterator.Seek
  simp only
  split
  · next h =>
    rw [h, List.append_nil] at hsplit
    show (List.takeWhile _ it.entries).reverse.reverse = it.entries
    rw [List.reverse_reverse, hsplit]
  · next c a h =>
    rw [h] at hsplit
    show (List.takeWhile _ it.entries).reverse.reverse ++ c :: a = it.entries
    rw [List.reverse_reverse, hsplit]

theorem Last_entries (it : Iterator) : it.Last.2.entries = it.entries := by
  unfold Iterator.Last
  split
  · next h =>
    have : it.entries = [] := by simpa using h
    show ([] : List Entry) = it.entries
    rw [this]
  · next c b h =>
    have : it.entries = (c :: b).reverse := by rw [← h, List.reverse_reverse]
    show b.reverse ++ c :: [] = it.entries
    rw [this]
    simp

theorem listKeyed_cursor (gob : Gob) (mdb : MessageDB) (channelId channelType next : Bytes)
    (direction : QueryDirection) (limit : Int) (hnext : next ≠ []) :
    listKeyed gob mdb channelId channelType next direction limit =
      (if direction = QueryDirectionBefore ∨ direction = QueryDirectionAround then
          (keyed gob ((inRange mdb.DB channelId channelType).takeWhile
            (fun e => bytesLt e.1 (messageKey channelType channelId next))).reverse).take
            limit.toNat
        else [],
       if direction = QueryDirectionAfter ∨ direction = QueryDirectionAround then
          (keyed gob ((inRange mdb.DB channelId channelType).dropWhile
            (fun e => bytesLt e.1 (messageKey channelType channelId next))).tail).take
            limit.toNat
        else []) := by
  have hE : (NewIterator mdb.DB (listPrefix channelType channelId)).entries =
      inRange mdb.DB channelId channelType := rfl
  unfold listKeyed
  simp only [hnext, ne_eq, not_false_eq_true, if_true, false_or, hE]
  have hnextL : ∀ x : Iterator, x.entries = inRange mdb.DB channelId channelType →
      (nextLoop gob limit ((inRange mdb.DB channelId channelType).length + 1)
        (x.Seek (messageKey channelType channelId next)).2 []).2 =
      (keyed gob ((inRange mdb.DB channelId channelType).dropWhile
        (fun e => bytesLt e.1 (messageKey channelType channelId next))).tail).take
        limit.toNat := by
    intro x hx
    have hlen : (x.Seek (messageKey channelType channelId next)).2.ahead.length <
        (inRange mdb.DB channelId channelType).length + 1 := by
      rw [Seek_ahead, hx, List.length_tail]
      have := (List.dropWhile_sublist (fun e => bytesLt e.1
        (messageKey channelType channelId next))
        (l := inRange mdb.DB channelId channelType)).length_le
      omega
    rw [nextLoop_spec _ _ _ _ _ hlen, Seek_ahead, hx]
    simp
  have hprevL : (prevLoop gob limit ((inRange mdb.DB channelId channelType).length + 1)
        ((NewIterator mdb.DB (listPrefix channelType channelId)).Seek
          (messageKey channelType channelId next)).2 []).2 =
      (keyed gob ((inRange mdb.DB channelId channelType).takeWhile
        (fun e => bytesLt e.1 (messageKey channelType channelId next))).reverse).take
        limit.toNat := by
    have hlen : ((NewIterator mdb.DB (listPrefix channelType channelId)).Seek
        (messageKey channelType channelId next)).2.behind.length <
        (inRange mdb.DB channelId channelType).length + 1 := by
      rw [Seek_behind, hE, List.length_reverse]
      have := (List.takeWhile_sublist (fun e => bytesLt e.1
        (messageKey channelType channelId next))
        (l := inRange mdb.DB channelId channelType)).length_le
      omega
    rw [prevLoop_spec _ _ _ _ _ hlen, Seek_behind, hE]
    simp
  have hS : ((NewIterator mdb.DB (listPrefix channelType channelId)).Seek
      (messageKey channelType channelId next)).2.entries =
      inRange mdb.DB channelId channelType := by rw [Seek_entries, hE]
  by_cases hb : direction = QueryDirectionBefore ∨ direction = QueryDirectionAround
  · simp only [hb, if_true, hprevL]
    by_cases ha : direction = QueryDirectionAfter ∨ direction = QueryDirectionAround
    · simp only [ha, if_true]
      rw [hnextL _ (by rw [prevLoop_entries, hS])]
    · simp only [ha, if_false]
  · simp only [hb, if_false]
    by_cases ha : direction = QueryDirectionAfter ∨ direction = QueryDirectionAround
    · simp only [ha, if_true]
      rw [hnextL _ hS]
    · simp only [ha, if_false]

theorem listKeyed_latest (gob : Gob) (mdb : MessageDB) (channelId channelType : Bytes)
    (direction : QueryDirection) (limit : Int) :
    listKeyed gob mdb channelId channelType [] direction limit =
      ((keyed gob (inRange mdb.DB channelId channelType).reverse.tail).take limit.toNat, []) := by
  have hE : (NewIterator mdb.DB (listPrefix channelType channelId)).entries =
      inRange mdb.DB channelId channelType := rfl
  unfold listKeyed
  simp only [ne_eq, not_true_eq_false, if_false, true_or, if_true, hE]
  have hlen : (NewIterator mdb.DB (listPrefix channelType channelId)).Last.2.behind.length <
      (inRange mdb.DB channelId channelType).length + 1 := by
    rw [Last_behind, hE, List.length_tail, List.length_reverse]
    omega
  rw [prevLoop_spec _ _ _ _ _ hlen, Last_behind, hE]
  simp

/-! ## Sorted stores: lemmas -/

theorem takeWhile_eq_filter_of_sorted (l : DB) (key : Bytes) (hs : DB.Sorted l) :
    l.takeWhile (fun e => bytesLt e.1 key) = l.filter (fun e => bytesLt e.1 key) := by
  induction l with
  | nil => rfl
  | cons x xs ih =>
    have hs2 : (∀ y ∈ xs, bytesLt x.1 y.1 = true) ∧ DB.Sorted xs := by
      simpa [DB.Sorted] using hs
    by_cases hx : bytesLt x.1 key = true
    · rw [List.takeWhile_cons, List.filter_cons]
      simp only [hx, if_true]
      rw [ih hs2.2]
    · rw [List.takeWhile_cons, List.filter_cons]
      simp only [hx, if_false]
      symm
      apply List.filter_eq_nil_iff.mpr
      intro y hy hyk
      exact hx (bytesLt_trans (hs2.1 y hy) hyk)

theorem dropWhile_tail_of_present (l : DB) (key : Bytes) (hs : DB.Sorted l)
    (hmem : ∃ e ∈ l, e.1 = key) :
    (l.dropWhile (fun e => bytesLt e.1 key)).tail = l.filter (fun e => bytesLt key e.1) := by
  induction l with
  | nil => rfl
  | cons x xs ih =>
    have hs2 : (∀ y ∈ xs, bytesLt x.1 y.1 = true) ∧ DB.Sorted xs := by
      simpa [DB.Sorted] using hs
    obtain ⟨e, he, hek⟩ := hmem
    by_cases hx : bytesLt x.1 key = true
    · have hx2 : bytesLt key x.1 = false := bytesLt_asymm hx
      have he2 : e ∈ xs := by
        rcases List.mem_cons.mp he with h | h
        · rw [h] at hek; rw [hek, bytesLt_irrefl] at hx; exact absurd hx (by simp)
        · exact h
      rw [List.dropWhile_cons, List.filter_cons]
      simp only [hx, if_true, hx2]
      exact ih hs2.2 ⟨e, he2, hek⟩
    · rw [List.dropWhile_cons, List.filter_cons]
      simp only [hx, if_false, List.tail_cons]
      have hxk : x.1 = key := by
        rcases List.mem_cons.mp he with h | h
        · rw [← h]; exact hek
        · have := hs2.1 e h
          rw [hek] at this
          exact absurd this hx
      have hx2 : bytesLt key x.1 = false := by rw [hxk]; exact bytesLt_irrefl key
      simp only [hx2]
      symm
      apply List.filter_eq_self.mpr
      intro y hy
      rw [← hxk]
      exact hs2.1 y hy

theorem dropWhile_of_absent (l : DB) (key : Bytes) (hs : DB.Sorted l)
    (hno : ∀ e ∈ l, e.1 ≠ key) :
    l.dropWhile (fun e => bytesLt e.1 key) = l.filter (fun e => bytesLt key e.1) := by
  induction l with
  | nil => rfl
  | cons x xs ih =>
    have hs2 : (∀ y ∈ xs, bytesLt x.1 y.1 = true) ∧ DB.Sorted xs := by
      simpa [DB.Sorted] using hs
    have hno2 : ∀ e ∈ xs, e.1 ≠ key := fun e he => hno e (List.mem_cons_of_mem _ he)
    by_cases hx : bytesLt x.1 key = true
    · have hx2 : bytesLt key x.1 = false := bytesLt_asymm hx
      rw [List.dropWhile_cons, List.filter_cons]
      simp only [hx, if_true, hx2]
      exact ih hs2.2 hno2
    · rw [List.dropWhile_cons, List.filter_cons]
      simp only [hx, if_false]
      have hx2 : bytesLt key x.1 = true := by
        cases h : bytesLt key x.1 with
        | true => rfl
        | false =>
          have hf : bytesLt x.1 key = false := by simpa using hx
          exact absurd (bytesLt_total hf h) (hno x (List.mem_cons_self _ _))
      have hxs : xs.filter (fun e => bytesLt key e.1) = xs := by
        apply List.filter_eq_self.mpr
        intro y hy
        exact bytesLt_trans hx2 (hs2.1 y hy)
      simp [hx2, hxs]

theorem keyed_map_snd (gob : Gob) (l : List Entry) :
    (keyed gob l).map Prod.snd = stored gob l := by
  induction l with
  | nil => rfl
  | cons x xs ih =>
    unfold keyed stored at ih ⊢
    rw [List.filterMap_cons, List.filterMap_cons]
    cases h : gob.Decode x.2 with
    | none => simpa using ih
    | some m => simpa using ih

theorem keyed_reverse (gob : Gob) (l : List Entry) :
    keyed gob l.reverse = (keyed gob l).reverse := by
  unfold keyed
  rw [List.filterMap_reverse]

theorem keyed_mem (gob : Gob) (l : List Entry) (r : Bytes × Message) (h : r ∈ keyed gob l) :
    ∃ v, (r.1, v) ∈ l ∧ gob.Decode v = some r.2 := by
  unfold keyed at h
  rw [List.mem_filterMap] at h
  obtain ⟨e, he, hd⟩ := h
  cases hv : gob.Decode e.2 with
  | none => simp [hv] at hd
  | some m =>
    simp [hv] at hd
    refine ⟨e.2, ?_, ?_⟩
    · rw [← hd]; exact he
    · rw [← hd]; exact hv

theorem messageKey_lt (channelType channelId a b : Bytes) :
    bytesLt (messageKey channelType channelId a) (messageKey channelType channelId b) =
      bytesLt a b := by
  unfold messageKey
  exact bytesLt_append_left _ a b

theorem inRange_of_HoldsOnly (gob : Gob) (db : DB) (channelId channelType : Bytes)
    (hh : HoldsOnly gob db channelId channelType) : inRange db channelId channelType = db := by
  unfold inRange
  apply List.filter_eq_self.mpr
  intro e he
  obtain ⟨m, _, hk⟩ := hh e he
  rw [hk, List.isPrefixOf_iff_prefix]
  refine ⟨colon ++ m.Id, ?_⟩
  simp [listPrefix, messageKey]

theorem stored_filter (gob : Gob) (db : DB) (channelId channelType : Bytes) (f : Bytes → Bool)
    (hh : HoldsOnly gob db channelId channelType) :
    stored gob (db.filter (fun e => f e.1)) =
      (stored gob db).filter (fun m => f (messageKey channelType channelId m.Id)) := by
  induction db with
  | nil => rfl
  | cons x xs ih =>
    have hh2 : HoldsOnly gob xs channelId channelType :=
      fun e he => hh e (List.mem_cons_of_mem _ he)
    obtain ⟨m, hd, hk⟩ := hh x (List.mem_cons_self _ _)
    have ih2 := ih hh2
    unfold stored at ih2 ⊢
    rw [List.filter_cons, List.filterMap_cons, hd]
    simp only
    rw [List.filter_cons, ← hk]
    by_cases hf : f x.1 = true
    · simp only [hf, if_true]
      rw [List.filterMap_cons, hd, ih2]
    · simp only [hf, if_false]
      exact ih2

theorem stored_mem (gob : Gob) (db : DB) (channelId channelType : Bytes)
    (hh : HoldsOnly gob db channelId channelType) (m : Message) (hm : m ∈ stored gob db) :
    ∃ e ∈ db, e.1 = messageKey channelType channelId m.Id := by
  unfold stored at hm
  rw [List.mem_filterMap] at hm
  obtain ⟨e, he, hd⟩ := hm
  obtain ⟨m1, hd1, hk⟩ := hh e he
  rw [hd1] at hd
  have : m1 = m := by simpa using hd
  rw [this] at hk
  exact ⟨e, he, hk⟩

theorem stored_ascending (gob : Gob) (db : DB) (channelId channelType : Bytes)
    (hs : DB.Sorted db) (hh : HoldsOnly gob db channelId channelType) :
    (stored gob db).Pairwise (fun a b => bytesLt a.Id b.Id = true) := by
  induction db with
  | nil => exact List.Pairwise.nil
  | cons x xs ih =>
    have hs2 : (∀ y ∈ xs, bytesLt x.1 y.1 = true) ∧ DB.Sorted xs := by
      simpa [DB.Sorted] using hs
    have hh2 : HoldsOnly gob xs channelId channelType :=
      fun e he => hh e (List.mem_cons_of_mem _ he)
    obtain ⟨m, hd, hk⟩ := hh x (List.mem_cons_self _ _)
    have hst : stored gob (x :: xs) = m :: stored gob xs := by
      unfold stored
      rw [List.filterMap_cons, hd]
    rw [hst, List.pairwise_cons]
    refine ⟨?_, ih hs2.2 hh2⟩
    intro m1 hm1
    obtain ⟨e, he, hek⟩ := stored_mem gob xs channelId channelType hh2 m1 hm1
    have := hs2.1 e he
    rw [hk, hek, messageKey_lt] at this
    exact this

theorem HoldsOnly_of_check (gob : Gob) (db : DB) (channelId channelType : Bytes)
    (h : holdsOnlyCheck gob db channelId channelType = true) :
    HoldsOnly gob db channelId channelType := by
  intro e he
  unfold holdsOnlyCheck at h
  rw [List.all_eq_true] at h
  have := h e he
  cases hd : gob.Decode e.2 with
  | none => simp [hd] at this
  | some m =>
    simp [hd] at this
    exact ⟨m, rfl, this⟩

theorem direction_before_not_after :
    ¬ (QueryDirectionBefore = QueryDirectionAfter ∨
       QueryDirectionBefore = QueryDirectionAround) := by decide

theorem direction_after_not_before :
    ¬ (QueryDirectionAfter = QueryDirectionBefore ∨
       QueryDirectionAfter = QueryDirectionAround) := by decide

/-! ## Message store: properties -/

/-- C6: on a store holding only decodable messages of one channel, with a non-empty
cursor and a limit of at least 0, `GetMessageList` with direction before returns as its
first list the messages whose id is before the cursor in byte order, nearest first
(descending id), cut to the limit, and an empty second list. -/
theorem GetMessageList_before (gob : Gob) (mdb : MessageDB)
    (channelId channelType next : Bytes) (limit : Nat)
    (hs : DB.Sorted mdb.DB) (hh : HoldsOnly gob mdb.DB channelId channelType)
    (hn : next ≠ []) :
    GetMessageList gob (some mdb) channelId channelType next QueryDirectionBefore limit =
      ((((stored gob mdb.DB).filter (fun m => bytesLt m.Id next)).reverse).take limit,
        [], none) ∧
    ((((stored gob mdb.DB).filter (fun m => bytesLt m.Id next)).reverse).take limit).Pairwise
      (fun a b => bytesLt b.Id a.Id = true) := by
  constructor
  · unfold GetMessageList
    simp only
    rw [listKeyed_cursor _ _ _ _ _ _ _ hn]
    simp only [direction_before_not_after, true_or, if_true, if_false, List.map_nil]
    rw [List.map_take, keyed_reverse, List.map_reverse, keyed_map_snd,
      inRange_of_HoldsOnly gob _ _ _ hh, takeWhile_eq_filter_of_sorted _ _ hs,
      stored_filter gob mdb.DB channelId channelType
        (fun k => bytesLt k (messageKey channelType channelId next)) hh]
    simp only [messageKey_lt, Int.toNat_ofNat]
  · apply List.Pairwise.sublist (List.take_sublist _ _)
    rw [List.pairwise_reverse]
    exact List.Pairwise.sublist (List.filter_sublist _)
      (stored_ascending gob mdb.DB channelId channelType hs hh)

/-- Witness of C6: the two messages before `m3` in the store of `m1` to `m5`. -/
theorem GetMessageList_before_witness :
    DB.Sorted store5.DB ∧ HoldsOnly demoGob store5.DB (ascii "c1") (ascii "text") ∧
    ascii "m3" ≠ [] ∧
    GetMessageList demoGob (some store5) (ascii "c1") (ascii "text") (ascii "m3")
      QueryDirectionBefore (2 : Nat) =
      ((((stored demoGob store5.DB).filter (fun m => bytesLt m.Id (ascii "m3"))).reverse).take 2,
        [], none) ∧
    GetMessageList demoGob (some store5) (ascii "c1") (ascii "text") (ascii "m3")
      QueryDirectionBefore (2 : Nat) = ([msg "m2", msg "m1"], [], none) :=
  have hs : DB.Sorted store5.DB := by decide
  have hh : HoldsOnly demoGob store5.DB (ascii "c1") (ascii "text") :=
    HoldsOnly_of_check _ _ _ _ (by decide)
  have hn : ascii "m3" ≠ [] := by decide
  ⟨hs, hh, hn,
    (GetMessageList_before demoGob store5 (ascii "c1") (ascii "text") (ascii "m3") 2 hs hh hn).1,
    by decide⟩

/-- C7, as the code has it: on a store holding only decodable messages of one channel,
with a non-empty cursor that is the id of a stored message and a limit of at least 0,
`GetMessageList` with direction after returns an empty first list and as its second
list the messages whose id is after the cursor, in ascending id order, cut to the
limit. -/
theorem GetMessageList_after_stored (gob : Gob) (mdb : MessageDB)
    (channelId channelType next : Bytes) (limit : Nat)
    (hs : DB.Sorted mdb.DB) (hh : HoldsOnly gob mdb.DB channelId channelType)
    (hn : next ≠ []) (hc : ∃ m ∈ stored gob mdb.DB, m.Id = next) :
    GetMessageList gob (some mdb) channelId channelType next QueryDirectionAfter limit =
      ([], ((stored gob mdb.DB).filter (fun m => bytesLt next m.Id)).take limit, none) ∧
    (((stored gob mdb.DB).filter (fun m => bytesLt next m.Id)).take limit).Pairwise
      (fun a b => bytesLt a.Id b.Id = true) := by
  constructor
  · obtain ⟨m, hm, hid⟩ := hc
    obtain ⟨e, he, hek⟩ := stored_mem gob mdb.DB channelId channelType hh m hm
    rw [hid] at hek
    unfold GetMessageList
    simp only
    rw [listKeyed_cursor _ _ _ _ _ _ _ hn]
    simp only [direction_after_not_before, true_or, if_true, if_false, List.map_nil]
    rw [List.map_take, keyed_map_snd, inRange_of_HoldsOnly gob _ _ _ hh,
      dropWhile_tail_of_present _ _ hs ⟨e, he, hek⟩,
      stored_filter gob mdb.DB channelId channelType
        (fun k => bytesLt (messageKey channelType channelId next) k) hh]
    simp only [messageKey_lt, Int.toNat_ofNat]
  · apply List.Pairwise.sublist (List.take_sublist _ _)
    exact List.Pairwise.sublist (List.filter_sublist _)
      (stored_ascending gob mdb.DB channelId channelType hs hh)

/-- Witness of C7: the two messages after `m3` in the store of `m1` to `m5`. -/
theorem GetMessageList_after_stored_witness :
    DB.Sorted store5.DB ∧ HoldsOnly demoGob store5.DB (ascii "c1") (ascii "text") ∧
    ascii "m3" ≠ [] ∧ (∃ m ∈ stored demoGob store5.DB, m.Id = ascii "m3") ∧
    GetMessageList demoGob (some store5) (ascii "c1") (ascii "text") (ascii "m3")
      QueryDirectionAfter (2 : Nat) =
      ([], ((stored demoGob store5.DB).filter (fun m => bytesLt (ascii "m3") m.Id)).take 2,
        none) ∧
    GetMessageList demoGob (some store5) (ascii "c1") (ascii "text") (ascii "m3")
      QueryDirectionAfter (2 : Nat) = ([], [msg "m4", msg "m5"], none) :=
  have hs : DB.Sorted store5.DB := by decide
  have hh : HoldsOnly demoGob store5.DB (ascii "c1") (ascii "text") :=
    HoldsOnly_of_check _ _ _ _ (by decide)
  have hn : ascii "m3" ≠ [] := by decide
  have hc : ∃ m ∈ stored demoGob store5.DB, m.Id = ascii "m3" :=
    ⟨msg "m3", by decide, by decide⟩
  ⟨hs, hh, hn, hc,
    (GetMessageList_after_stored demoGob store5 (ascii "c1") (ascii "text") (ascii "m3") 2
      hs hh hn hc).1,
    by decide⟩

/-- C7 as stated fails for a stored message with the empty id: the cursor equal to that
id is the empty cursor, which `GetMessageList` takes as "no cursor". With a message of
empty id, `m1` and `m2` stored, direction after and limit 2, the first list is not empty
and the second list is. -/
theorem GetMessageList_after_empty_id :
    DB.Sorted storeEmptyId.DB ∧
    HoldsOnly demoGob storeEmptyId.DB (ascii "c1") (ascii "text") ∧
    (∃ m ∈ stored demoGob storeEmptyId.DB, m.Id = ([] : Bytes)) ∧
    GetMessageList demoGob (some storeEmptyId) (ascii "c1") (ascii "text") []
      QueryDirectionAfter (2 : Nat) = ([msg "m1", msg ""], [], none) ∧
    GetMessageList demoGob (some storeEmptyId) (ascii "c1") (ascii "text") []
      QueryDirectionAfter (2 : Nat) ≠
      ([], ((stored demoGob storeEmptyId.DB).filter (fun m => bytesLt [] m.Id)).take 2, none) :=
  ⟨by decide, HoldsOnly_of_check _ _ _ _ (by decide), ⟨msg "", by decide, by decide⟩,
    by decide, by decide⟩

/-- What `GetMessageList` returns for an empty cursor: the scan starts with `Prev` from
the last record, so the newest message is left out. -/
theorem GetMessageList_latest (gob : Gob) (mdb : MessageDB)
    (channelId channelType : Bytes) (direction : QueryDirection) (limit : Nat)
    (hh : HoldsOnly gob mdb.DB channelId channelType) :
    GetMessageList gob (some mdb) channelId channelType [] direction limit =
      ((stored gob mdb.DB).reverse.tail.take limit, [], none) := by
  unfold GetMessageList
  simp only
  rw [listKeyed_latest]
  simp only [List.map_nil]
  rw [List.map_take, inRange_of_HoldsOnly gob _ _ _ hh]
  have hkey : ∀ l : List Entry, HoldsOnly gob l channelId channelType →
      (keyed gob l.reverse.tail).map Prod.snd = (stored gob l).reverse.tail := by
    intro l hl
    induction l using List.reverseRecOn with
    | nil => rfl
    | append_singleton xs x _ =>
      obtain ⟨m, hd, _⟩ := hl x (by simp)
      have h1 : stored gob (xs ++ [x]) = stored gob xs ++ [m] := by
        unfold stored
        rw [List.filterMap_append]
        simp [hd]
      rw [h1]
      simp only [List.reverse_append, List.reverse_cons, List.reverse_nil, List.nil_append,
        List.singleton_append, List.tail_cons]
      rw [keyed_reverse, List.map_reverse, keyed_map_snd]
  rw [hkey _ hh]
  simp

/-- C8 at a concrete store: with `m1` to `m5` stored, an empty cursor and limit 2 the
first list is `m4`, `m3`; the two most recent messages are `m5`, `m4`. -/
theorem GetMessageList_latest_skips_newest :
    stored demoGob store5.DB = [msg "m1", msg "m2", msg "m3", msg "m4", msg "m5"] ∧
    GetMessageList demoGob (some store5) (ascii "c1") (ascii "text") []
      QueryDirectionBefore (2 : Nat) = ([msg "m4", msg "m3"], [], none) ∧
    GetMessageList demoGob (some store5) (ascii "c1") (ascii "text") []
      QueryDirectionBefore (2 : Nat) ≠ ([msg "m5", msg "m4"], [], none) :=
  ⟨by decide, by decide, by decide⟩

theorem dropWhile_tail_keys (l : DB) (key : Bytes) (hs : DB.Sorted l) :
    ∀ e ∈ (l.dropWhile (fun e => bytesLt e.1 key)).tail, e.1 ≠ key := by
  induction l with
  | nil => intro e he; simp at he
  | cons x xs ih =>
    have hs2 : (∀ y ∈ xs, bytesLt x.1 y.1 = true) ∧ DB.Sorted xs := by
      simpa [DB.Sorted] using hs
    by_cases hx : bytesLt x.1 key = true
    · rw [List.dropWhile_cons]
      simp only [hx, if_true]
      exact ih hs2.2
    · rw [List.dropWhile_cons]
      simp only [hx, if_false, List.tail_cons]
      intro e he hek
      have := hs2.1 e he
      rw [hek] at this
      exact hx this

theorem inRange_sorted (db : DB) (channelId channelType : Bytes) (hs : DB.Sorted db) :
    DB.Sorted (inRange db channelId channelType) :=
  List.Pairwise.sublist (List.filter_sublist _) hs

theorem inRange_subset (db : DB) (channelId channelType : Bytes) (e : Entry)
    (he : e ∈ inRange db channelId channelType) : e ∈ db :=
  (List.mem_filter.mp he).1

/-- C9: for a non-empty cursor the result of `GetMessageList` with direction around is
the first list of the same query with direction before paired with the second list of
the same query with direction after; every returned message was decoded from a record
of the store whose key is not the key of the cursor. -/
theorem GetMessageList_around (gob : Gob) (mdb : MessageDB)
    (channelId channelType next : Bytes) (limit : Int)
    (hs : DB.Sorted mdb.DB) (hn : next ≠ []) :
    GetMessageList gob (some mdb) channelId channelType next QueryDirectionAround limit =
      ((GetMessageList gob (some mdb) channelId channelType next
          QueryDirectionBefore limit).1,
       (GetMessageList gob (some mdb) channelId channelType next
          QueryDirectionAfter limit).2.1, none) ∧
    (GetMessageList gob (some mdb) channelId channelType next QueryDirectionAround limit).1 =
      (listKeyed gob mdb channelId channelType next QueryDirectionAround limit).1.map
        Prod.snd ∧
    (GetMessageList gob (some mdb) channelId channelType next QueryDirectionAround limit).2.1 =
      (listKeyed gob mdb channelId channelType next QueryDirectionAround limit).2.map
        Prod.snd ∧
    (∀ r ∈ (listKeyed gob mdb channelId channelType next QueryDirectionAround limit).1 ++
        (listKeyed gob mdb channelId channelType next QueryDirectionAround limit).2,
      r.1 ≠ messageKey channelType channelId next ∧
      ∃ v, (r.1, v) ∈ mdb.DB ∧ gob.Decode v = some r.2) := by
  refine ⟨?_, rfl, rfl, ?_⟩
  · unfold GetMessageList
    simp only
    rw [listKeyed_cursor _ _ _ _ _ _ _ hn, listKeyed_cursor _ _ _ _ _ _ _ hn,
      listKeyed_cursor _ _ _ _ _ _ _ hn]
    simp only [direction_after_not_before, direction_before_not_after, true_or, or_true,
      if_true, if_false]
  · intro r hr
    rw [listKeyed_cursor _ _ _ _ _ _ _ hn] at hr
    simp only [or_true, if_true, List.mem_append] at hr
    rcases hr with hr | hr
    · obtain ⟨v, hv, hd⟩ := keyed_mem gob _ r (List.mem_of_mem_take hr)
      rw [List.mem_reverse] at hv
      have hlt : bytesLt r.1 (messageKey channelType channelId next) = true := by
        simpa using List.mem_takeWhile_imp hv
      refine ⟨?_, v, inRange_subset _ _ _ _ ((List.takeWhile_sublist _).subset hv), hd⟩
      intro heq
      rw [heq, bytesLt_irrefl] at hlt
      exact absurd hlt (by simp)
    · obtain ⟨v, hv, hd⟩ := keyed_mem gob _ r (List.mem_of_mem_take hr)
      refine ⟨dropWhile_tail_keys _ _ (inRange_sorted _ _ _ hs) _ hv, v, ?_, hd⟩
      exact inRange_subset _ _ _ _
        ((List.dropWhile_sublist _).subset (List.mem_of_mem_tail hv))

/-- Witness of C9: around `m3` with limit 1 in the store of `m1` to `m5`. -/
theorem GetMessageList_around_witness :
    DB.Sorted store5.DB ∧ ascii "m3" ≠ [] ∧
    GetMessageList demoGob (some store5) (ascii "c1") (ascii "text") (ascii "m3")
      QueryDirectionAround 1 =
      ((GetMessageList demoGob (some store5) (ascii "c1") (ascii "text") (ascii "m3")
          QueryDirectionBefore 1).1,
       (GetMessageList demoGob (some store5) (ascii "c1") (ascii "text") (ascii "m3")
          QueryDirectionAfter 1).2.1, none) ∧
    GetMessageList demoGob (some store5) (ascii "c1") (ascii "text") (ascii "m3")
      QueryDirectionAround 1 = ([msg "m2"], [msg "m4"], none) :=
  have hs : DB.Sorted store5.DB := by decide
  have hn : ascii "m3" ≠ [] := by decide
  ⟨hs, hn,
    (GetMessageList_around demoGob store5 (ascii "c1") (ascii "text") (ascii "m3") 1 hs hn).1,
    by decide⟩

theorem stored_tail (gob : Gob) (l : DB) (channelId channelType : Bytes)
    (hh : HoldsOnly gob l channelId channelType) :
    stored gob l.tail = (stored gob l).tail := by
  cases l with
  | nil => rfl
  | cons x xs =>
    obtain ⟨m, hd, _⟩ := hh x (List.mem_cons_self _ _)
    unfold stored
    rw [List.filterMap_cons, hd]
    rfl

/-- What `GetMessageList` returns with direction after for a cursor that is no stored
id: `Seek` stops on the nearest later record and the first `Next` steps over it. -/
theorem GetMessageList_after_absent (gob : Gob) (mdb : MessageDB)
    (channelId channelType next : Bytes) (limit : Nat)
    (hs : DB.Sorted mdb.DB) (hh : HoldsOnly gob mdb.DB channelId channelType)
    (hn : next ≠ []) (hc : ∀ m ∈ stored gob mdb.DB, m.Id ≠ next) :
    GetMessageList gob (some mdb) channelId channelType next QueryDirectionAfter limit =
      ([], ((stored gob mdb.DB).filter (fun m => bytesLt next m.Id)).tail.take limit,
        none) := by
  have hno : ∀ e ∈ mdb.DB, e.1 ≠ messageKey channelType channelId next := by
    intro e he hek
    obtain ⟨m, hd, hk⟩ := hh e he
    have hm : m ∈ stored gob mdb.DB := by
      unfold stored
      rw [List.mem_filterMap]
      exact ⟨e, he, hd⟩
    apply hc m hm
    rw [hk] at hek
    unfold messageKey at hek
    exact List.append_cancel_left hek
  have hh2 : HoldsOnly gob (mdb.DB.filter
      (fun e => bytesLt (messageKey channelType channelId next) e.1)) channelId channelType :=
    fun e he => hh e (List.mem_filter.mp he).1
  unfold GetMessageList
  simp only
  rw [listKeyed_cursor _ _ _ _ _ _ _ hn]
  simp only [direction_after_not_before, true_or, if_true, if_false, List.map_nil]
  rw [List.map_take, keyed_map_snd, inRange_of_HoldsOnly gob _ _ _ hh,
    dropWhile_of_absent _ _ hs hno, stored_tail gob _ channelId channelType hh2,
    stored_filter gob mdb.DB channelId channelType
      (fun k => bytesLt (messageKey channelType channelId next) k) hh]
  simp only [messageKey_lt, Int.toNat_ofNat]

/-- C10 at a concrete store: with `m1`, `m3`, `m5` stored, the cursor `m2` (no stored
id), direction after and limit 1, the second list is `m5`; the stored message with the
smallest id after the cursor is `m3`. -/
theorem GetMessageList_after_absent_skips_nearest :
    stored demoGob store135.DB = [msg "m1", msg "m3", msg "m5"] ∧
    (∀ m ∈ stored demoGob store135.DB, m.Id ≠ ascii "m2") ∧
    GetMessageList demoGob (some store135) (ascii "c1") (ascii "text") (ascii "m2")
      QueryDirectionAfter 1 = ([], [msg "m5"], none) ∧
    ((stored demoGob store135.DB).filter (fun m => bytesLt (ascii "m2") m.Id)).take 1 =
      [msg "m3"] :=
  ⟨by decide, by decide, by decide, by decide⟩

/-! ## Store records: lemmas -/

theorem Put_cons_lt (x : Entry) (xs : DB) (key value : Bytes)
    (h : bytesLt key x.1 = true) :
    DB.Put (x :: xs) key value = (key, value) :: x :: xs := by
  rw [DB.Put, if_pos h]

theorem Put_cons_eq (x : Entry) (xs : DB) (key value : Bytes)
    (h1 : ¬ bytesLt key x.1 = true) (h2 : key = x.1) :
    DB.Put (x :: xs) key value = (key, value) :: xs := by
  rw [DB.Put, if_neg h1, if_pos h2]

theorem Put_cons_gt (x : Entry) (xs : DB) (key value : Bytes)
    (h1 : ¬ bytesLt key x.1 = true) (h2 : ¬ key = x.1) :
    DB.Put (x :: xs) key value = x :: DB.Put xs key value := by
  rw [DB.Put, if_neg h1, if_neg h2]

theorem Get_cons_eq (x : Entry) (xs : DB) (key : Bytes) (h : x.1 = key) :
    DB.Get (x :: xs) key = some x.2 := by
  simp [DB.Get, List.find?_cons, h]

theorem Get_cons_ne (x : Entry) (xs : DB) (key : Bytes) (h : ¬ x.1 = key) :
    DB.Get (x :: xs) key = DB.Get xs key := by
  simp [DB.Get, List.find?_cons, h]

theorem Get_Put_same (db : DB) (key value : Bytes) :
    (DB.Put db key value).Get key = some value := by
  induction db with
  | nil => simp [DB.Put, DB.Get]
  | cons x xs ih =>
    by_cases h1 : bytesLt key x.1 = true
    · rw [Put_cons_lt x xs key value h1, Get_cons_eq _ _ _ rfl]
    · by_cases h2 : key = x.1
      · rw [Put_cons_eq x xs key value h1 h2, Get_cons_eq _ _ _ rfl]
      · rw [Put_cons_gt x xs key value h1 h2, Get_cons_ne _ _ _ (fun h => h2 h.symm)]
        exact ih

theorem Put_filter_ne (db : DB) (key value : Bytes) :
    (DB.Put db key value).filter (fun e => decide (e.1 ≠ key)) =
      db.filter (fun e => decide (e.1 ≠ key)) := by
  induction db with
  | nil => simp [DB.Put]
  | cons x xs ih =>
    by_cases h1 : bytesLt key x.1 = true
    · rw [Put_cons_lt x xs key value h1, List.filter_cons]
      simp
    · by_cases h2 : key = x.1
      · rw [Put_cons_eq x xs key value h1 h2, List.filter_cons, List.filter_cons]
        simp [h2]
      · rw [Put_cons_gt x xs key value h1 h2, List.filter_cons, List.filter_cons, ih]

theorem Put_Put_same (db : DB) (key value : Bytes) :
    DB.Put (DB.Put db key value) key value = DB.Put db key value := by
  have hirr : ¬ bytesLt key (key, value).1 = true := by simp [bytesLt_irrefl]
  induction db with
  | nil =>
    have e : DB.Put [] key value = [(key, value)] := by simp [DB.Put]
    rw [e, Put_cons_eq _ _ _ _ hirr rfl]
  | cons x xs ih =>
    by_cases h1 : bytesLt key x.1 = true
    · rw [Put_cons_lt x xs key value h1, Put_cons_eq _ _ _ _ hirr rfl]
    · by_cases h2 : key = x.1
      · rw [Put_cons_eq x xs key value h1 h2, Put_cons_eq _ _ _ _ hirr rfl]
      · rw [Put_cons_gt x xs key value h1 h2, Put_cons_gt _ _ _ _ h1 h2, ih]

theorem mem_Put (db : DB) (key value : Bytes) (e : Entry) (he : e ∈ DB.Put db key value) :
    e = (key, value) ∨ e ∈ db := by
  induction db with
  | nil =>
    have e0 : DB.Put [] key value = [(key, value)] := by simp [DB.Put]
    rw [e0] at he
    exact Or.inl (List.mem_singleton.mp he)
  | cons x xs ih =>
    by_cases h1 : bytesLt key x.1 = true
    · rw [Put_cons_lt x xs key value h1] at he
      rcases List.mem_cons.mp he with h | h
      · exact Or.inl h
      · exact Or.inr h
    · by_cases h2 : key = x.1
      · rw [Put_cons_eq x xs key value h1 h2] at he
        rcases List.mem_cons.mp he with h | h
        · exact Or.inl h
        · exact Or.inr (List.mem_cons_of_mem _ h)
      · rw [Put_cons_gt x xs key value h1 h2] at he
        rcases List.mem_cons.mp he with h | h
        · exact Or.inr (by rw [h]; exact List.mem_cons_self _ _)
        · rcases ih h with h | h
          · exact Or.inl h
          · exact Or.inr (List.mem_cons_of_mem _ h)

theorem Put_sorted (db : DB) (key value : Bytes) (hs : DB.Sorted db) :
    DB.Sorted (DB.Put db key value) := by
  induction db with
  | nil => simp [DB.Put, DB.Sorted]
  | cons x xs ih =>
    have hs2 : (∀ y ∈ xs, bytesLt x.1 y.1 = true) ∧ DB.Sorted xs := by
      simpa [DB.Sorted] using hs
    by_cases h1 : bytesLt key x.1 = true
    · rw [Put_cons_lt x xs key value h1]
      unfold DB.Sorted
      rw [List.pairwise_cons]
      refine ⟨?_, hs⟩
      intro y hy
      rcases List.mem_cons.mp hy with h | h
      · rw [h]; exact h1
      · exact bytesLt_trans h1 (hs2.1 y h)
    · by_cases h2 : key = x.1
      · rw [Put_cons_eq x xs key value h1 h2]
        unfold DB.Sorted
        rw [List.pairwise_cons]
        exact ⟨fun y hy => by rw [h2]; exact hs2.1 y hy, hs2.2⟩
      · rw [Put_cons_gt x xs key value h1 h2]
        unfold DB.Sorted
        rw [List.pairwise_cons]
        refine ⟨?_, ih hs2.2⟩
        intro y hy
        rcases mem_Put xs key value y hy with h | h
        · rw [h]
          cases h3 : bytesLt x.1 key with
          | true => rfl
          | false =>
            have h4 : bytesLt key x.1 = false := by simpa using h1
            exact absurd (bytesLt_total h4 h3) h2
        · exact hs2.1 y h

theorem sorted_filter_key (db : DB) (key value : Bytes) (hs : DB.Sorted db)
    (hg : db.Get key = some value) :
    db.filter (fun e => decide (e.1 = key)) = [(key, value)] := by
  induction db with
  | nil => simp [DB.Get] at hg
  | cons x xs ih =>
    have hs2 : (∀ y ∈ xs, bytesLt x.1 y.1 = true) ∧ DB.Sorted xs := by
      simpa [DB.Sorted] using hs
    by_cases hx : x.1 = key
    · rw [Get_cons_eq x xs key hx] at hg
      have hv : x.2 = value := by simpa using hg
      have hnone : xs.filter (fun e => decide (e.1 = key)) = [] := by
        apply List.filter_eq_nil_iff.mpr
        intro y hy hyk
        have h1 := hs2.1 y hy
        have h2 : y.1 = key := by simpa using hyk
        rw [hx, h2, bytesLt_irrefl] at h1
        exact absurd h1 (by simp)
      rw [List.filter_cons, hnone]
      simp only [hx, decide_True, if_true]
      rw [← hx, ← hv]
    · rw [Get_cons_ne x xs key hx] at hg
      rw [List.filter_cons]
      simp only [hx, decide_False]
      exact ih hs2.2 hg

/-! ## Save and get: properties -/

/-- C11 at a concrete store: with `m1`, `m3` saved to the channel `12` and `m9` saved to
the channel `123` of the same scope, the list of the channel `12` before the cursor `m3`
holds `m9`, a message that `GetMessage` finds under the channel `123` and not under the
channel `12`. -/
theorem GetMessageList_other_channel :
    storeTwoChannels.DB.map Prod.fst =
      [messageKey (ascii "text") (ascii "123") (ascii "m9"),
       messageKey (ascii "text") (ascii "12") (ascii "m1"),
       messageKey (ascii "text") (ascii "12") (ascii "m3")] ∧
    GetMessage demoGob (some storeTwoChannels) (ascii "123") (ascii "text") (ascii "m9") =
      (some (msg "m9"), none) ∧
    GetMessage demoGob (some storeTwoChannels) (ascii "12") (ascii "text") (ascii "m9") =
      (none, some ErrNotFound) ∧
    GetMessageList demoGob (some storeTwoChannels) (ascii "12") (ascii "text") (ascii "m3")
      QueryDirectionBefore 5 = ([msg "m1", msg "m9"], [], none) :=
  ⟨by decide, by decide, by decide, by decide⟩

/-- C12: on an opened store, for a message the coder gives back, `SaveMessage` returns
no error and `GetMessage` with the same channel, scope and the id of the message then
returns that message and no error. -/
theorem SaveMessage_then_GetMessage (gob : Gob) (mdb : MessageDB) (m : Message)
    (channelId channelType : Bytes) (hrt : gob.RoundTrips m) :
    (SaveMessage gob (some mdb) m channelId channelType).2 = none ∧
    GetMessage gob (SaveMessage gob (some mdb) m channelId channelType).1
      channelId channelType m.Id = (some m, none) := by
  unfold Gob.RoundTrips at hrt
  cases henc : gob.Encode m with
  | none => simp [henc] at hrt
  | some buf =>
    have hdec : gob.Decode buf = some m := by simpa [henc] using hrt
    have hsave : SaveMessage gob (some mdb) m channelId channelType =
        (some { mdb with DB := mdb.DB.Put (messageKey channelType channelId m.Id) buf },
          none) := by
      simp [SaveMessage, henc]
    rw [hsave]
    refine ⟨rfl, ?_⟩
    simp [GetMessage, Get_Put_same, hdec]

/-- Witness of C12: saving `m3` to the store of `m1` to `m5` and getting it back. -/
theorem SaveMessage_then_GetMessage_witness :
    demoGob.RoundTrips (msg "m3") ∧
    GetMessage demoGob (SaveMessage demoGob (some store5) (msg "m3") (ascii "c1")
      (ascii "text")).1 (ascii "c1") (ascii "text") (msg "m3").Id = (some (msg "m3"), none) :=
  have hrt : demoGob.RoundTrips (msg "m3") := by decide
  ⟨hrt, (SaveMessage_then_GetMessage demoGob store5 (msg "m3") (ascii "c1") (ascii "text")
    hrt).2⟩

/-- C13: on an opened store, saving two messages with the same id to the same channel
and scope leaves exactly one record under their key, holding the encoding of the
second; the records under every other key are as before; and saving the same message
twice leaves the store as saving it once does. -/
theorem SaveMessage_overwrites (gob : Gob) (mdb : MessageDB) (m1 m2 : Message)
    (channelId channelType b1 b2 : Bytes) (hs : DB.Sorted mdb.DB) (hid : m1.Id = m2.Id)
    (h1 : gob.Encode m1 = some b1) (h2 : gob.Encode m2 = some b2) :
    ∃ mdb2 : MessageDB,
      SaveMessage gob (SaveMessage gob (some mdb) m1 channelId channelType).1 m2
        channelId channelType = (some mdb2, none) ∧
      DB.Sorted mdb2.DB ∧
      mdb2.DB.filter (fun e => decide (e.1 = messageKey channelType channelId m2.Id)) =
        [(messageKey channelType channelId m2.Id, b2)] ∧
      mdb2.DB.filter (fun e => decide (e.1 ≠ messageKey channelType channelId m2.Id)) =
        mdb.DB.filter (fun e => decide (e.1 ≠ messageKey channelType channelId m2.Id)) ∧
      SaveMessage gob (some mdb2) m2 channelId channelType = (some mdb2, none) ∧
      SaveMessage gob (SaveMessage gob (some mdb) m2 channelId channelType).1 m2
        channelId channelType = SaveMessage gob (some mdb) m2 channelId channelType := by
  have hs1 : SaveMessage gob (some mdb) m1 channelId channelType =
      (some { mdb with DB := mdb.DB.Put (messageKey channelType channelId m2.Id) b1 },
        none) := by
    simp [SaveMessage, h1, hid]
  rw [hs1]
  refine ⟨{ mdb with DB := (DB.Put (DB.Put mdb.DB (messageKey channelType channelId m2.Id) b1)
    (messageKey channelType channelId m2.Id) b2) }, ?_, ?_, ?_, ?_, ?_, ?_⟩
  · simp [SaveMessage, h2]
  · exact Put_sorted _ _ _ (Put_sorted _ _ _ hs)
  · exact sorted_filter_key _ _ _ (Put_sorted _ _ _ (Put_sorted _ _ _ hs))
      (Get_Put_same _ _ _)
  · show (DB.Put (DB.Put mdb.DB (messageKey channelType channelId m2.Id) b1)
      (messageKey channelType channelId m2.Id) b2).filter _ = _
    rw [Put_filter_ne, Put_filter_ne]
  · simp [SaveMessage, h2, Put_Put_same]
  · simp [SaveMessage, h2, Put_Put_same]

/-- Witness of C13: saving `m3` twice to the store of `m1` to `m5`. -/
theorem SaveMessage_overwrites_witness :
    DB.Sorted store5.DB ∧ (msg "m3").Id = (msg "m3").Id ∧
    demoGob.Encode (msg "m3") = some (2 :: (ascii "m3" ++ ascii "hi")) ∧
    ∃ mdb2 : MessageDB,
      SaveMessage demoGob (SaveMessage demoGob (some store5) (msg "m3") (ascii "c1")
        (ascii "text")).1 (msg "m3") (ascii "c1") (ascii "text") = (some mdb2, none) ∧
      DB.Sorted mdb2.DB :=
  have hs : DB.Sorted store5.DB := by decide
  have he : demoGob.Encode (msg "m3") = some (2 :: (ascii "m3" ++ ascii "hi")) := by decide
  have h := SaveMessage_overwrites demoGob store5 (msg "m3") (msg "m3") (ascii "c1")
    (ascii "text") _ _ hs rfl he he
  ⟨hs, rfl, he, h.elim (fun mdb2 hm => ⟨mdb2, hm.1, hm.2.1⟩)⟩

/-- C14: when the message database is disabled, or `StartMessageDB` returned an error,
the store instance is nil, and then for every argument `SaveMessage` returns no error,
`GetMessage` returns no message and no error, and `GetMessageList` returns two empty
lists and no error. -/
theorem disabled_store (gob : Gob) (enable : Bool) (openResult : Except GoError DB)
    (messageLimit : Int) (h : enable = false ∨ ∃ err, openResult = Except.error err) :
    mainMessageDB enable openResult messageLimit = none ∧
    (∀ (data : Message) (channelId channelType : Bytes),
      (SaveMessage gob (mainMessageDB enable openResult messageLimit) data channelId
        channelType).2 = none) ∧
    (∀ (channelId channelType messageId : Bytes),
      GetMessage gob (mainMessageDB enable openResult messageLimit) channelId channelType
        messageId = (none, none)) ∧
    (∀ (channelId channelType next : Bytes) (direction : QueryDirection) (limit : Int),
      GetMessageList gob (mainMessageDB enable openResult messageLimit) channelId
        channelType next direction limit = ([], [], none)) := by
  have hnone : mainMessageDB enable openResult messageLimit = none := by
    unfold mainMessageDB
    rcases h with h | ⟨err, h⟩
    · simp [h]
    · simp [h, StartMessageDB]
  rw [hnone]
  exact ⟨rfl, fun _ _ _ => rfl, fun _ _ _ => rfl, fun _ _ _ _ _ => rfl⟩

/-- Witness of C14: the database is enabled and opening it fails. -/
theorem disabled_store_witness :
    (true = false ∨ ∃ err, (Except.error (GoError.other "resource temporarily unavailable") :
      Except GoError DB) = Except.error err) ∧
    GetMessage demoGob (mainMessageDB true
      (Except.error (GoError.other "resource temporarily unavailable")) 100)
      (ascii "c1") (ascii "text") (ascii "m1") = (none, none) :=
  have h : true = false ∨ ∃ err, (Except.error (GoError.other
      "resource temporarily unavailable") : Except GoError DB) = Except.error err :=
    Or.inr ⟨_, rfl⟩
  ⟨h, (disabled_store demoGob true _ 100 h).2.2.1 (ascii "c1") (ascii "text") (ascii "m1")⟩

/-- C15: on an opened store `GetMessage` returns no message and `ErrNotFound` when no
record lies under exactly the key of the query, whatever lies under other keys; and
when it returns a message, a record lies under exactly that key and decodes to it. -/
theorem GetMessage_exact_key (gob : Gob) (mdb : MessageDB)
    (channelId channelType messageId : Bytes) :
    ((∀ e ∈ mdb.DB, e.1 ≠ messageKey channelType channelId messageId) →
      GetMessage gob (some mdb) channelId channelType messageId = (none, some ErrNotFound)) ∧
    (∀ m, (GetMessage gob (some mdb) channelId channelType messageId).1 = some m →
      ∃ v, (messageKey channelType channelId messageId, v) ∈ mdb.DB ∧
        gob.Decode v = some m) := by
  constructor
  · intro h
    have hg : mdb.DB.Get (messageKey channelType channelId messageId) = none := by
      unfold DB.Get
      rw [Option.map_eq_none', List.find?_eq_none]
      intro e he
      simpa using h e he
    simp [GetMessage, hg]
  · intro m hm
    unfold GetMessage at hm
    simp only at hm
    cases hg : mdb.DB.Get (messageKey channelType channelId messageId) with
    | none => simp [hg] at hm
    | some v =>
      rw [hg] at hm
      simp only at hm
      cases hd : gob.Decode v with
      | none => simp [hd] at hm
      | some m1 =>
        rw [hd] at hm
        simp only [Option.some.injEq] at hm
        refine ⟨v, ?_, by rw [hd, hm]⟩
        unfold DB.Get at hg
        rw [Option.map_eq_some'] at hg
        obtain ⟨e, he, hv⟩ := hg
        have hmem := List.mem_of_find?_eq_some he
        have hk : e.1 = messageKey channelType channelId messageId := by
          simpa using List.find?_some he
        rw [← hk, ← hv]
        exact hmem

/-- Witness of C15: `m9` lies under the channel `123` only; asking for it under the
channel `12` finds nothing. -/
theorem GetMessage_exact_key_witness :
    (∀ e ∈ storeTwoChannels.DB,
      e.1 ≠ messageKey (ascii "text") (ascii "12") (ascii "m9")) ∧
    GetMessage demoGob (some storeTwoChannels) (ascii "12") (ascii "text") (ascii "m9") =
      (none, some ErrNotFound) :=
  have h : ∀ e ∈ storeTwoChannels.DB,
      e.1 ≠ messageKey (ascii "text") (ascii "12") (ascii "m9") := by decide
  ⟨h, (GetMessage_exact_key demoGob storeTwoChannels (ascii "12") (ascii "text")
    (ascii "m9")).1 h⟩

/-! ## Undecodable records -/

theorem stored_filter_inChannel (gob : Gob) (db : DB) (channelId channelType : Bytes)
    (f : Bytes → Bool) (hh : InChannel gob db channelId channelType) :
    stored gob (db.filter (fun e => f e.1)) =
      (stored gob db).filter (fun m => f (messageKey channelType channelId m.Id)) := by
  induction db with
  | nil => rfl
  | cons x xs ih =>
    have hh2 : InChannel gob xs channelId channelType :=
      fun e he => hh e (List.mem_cons_of_mem _ he)
    have hx := (hh x (List.mem_cons_self _ _)).2
    have ih2 := ih hh2
    unfold stored at ih2 ⊢
    rw [List.filter_cons, List.filterMap_cons]
    cases hd : gob.Decode x.2 with
    | none =>
      simp only
      by_cases hf : f x.1 = true
      · simp only [hf, if_true]
        rw [List.filterMap_cons, hd]
        exact ih2
      · simp only [hf, if_false]
        exact ih2
    | some m =>
      simp only
      rw [List.filter_cons, ← hx m hd]
      by_cases hf : f x.1 = true
      · simp only [hf, if_true]
        rw [List.filterMap_cons, hd, ih2]
      · simp only [hf, if_false]
        exact ih2

/-- Undecodable records are skipped: when the records the iterator ranges over all lie
under keys of the queried channel, some of them failing to decode, `GetMessageList` with a non-empty
cursor and direction before returns no error and as first list the decodable messages
with id below the cursor, nearest first, cut to the limit; records that fail to decode
are left out, do not end the scan and do not count. -/
theorem GetMessageList_before_undecodable (gob : Gob) (mdb : MessageDB)
    (channelId channelType next : Bytes) (limit : Nat) (hs : DB.Sorted mdb.DB)
    (hh : InChannel gob (inRange mdb.DB channelId channelType) channelId channelType)
    (hn : next ≠ []) :
    GetMessageList gob (some mdb) channelId channelType next QueryDirectionBefore limit =
      ((((stored gob (inRange mdb.DB channelId channelType)).filter
          (fun m => bytesLt m.Id next)).reverse).take limit, [], none) := by
  unfold GetMessageList
  simp only
  rw [listKeyed_cursor _ _ _ _ _ _ _ hn]
  simp only [direction_before_not_after, true_or, if_true, if_false, List.map_nil]
  rw [List.map_take, keyed_reverse, List.map_reverse, keyed_map_snd,
    takeWhile_eq_filter_of_sorted _ _ (inRange_sorted _ _ _ hs),
    stored_filter_inChannel gob _ channelId channelType
      (fun k => bytesLt k (messageKey channelType channelId next)) hh]
  simp only [messageKey_lt, Int.toNat_ofNat]

/-- C16 at a concrete store: the channel `12` holds `m1`, a record under the id `m2`
that does not decode, and `m3`; the channel `123` holds `m9`. The list of the channel
`12` before the cursor `m3` leaves the undecodable record out and goes on to `m1`, but
then holds `m9` of the other channel, whose id is not below the cursor. -/
theorem GetMessageList_before_undecodable_other_channel :
    storeTwoChannelsCorrupt.DB.map Prod.fst =
      [messageKey (ascii "text") (ascii "123") (ascii "m9"),
       messageKey (ascii "text") (ascii "12") (ascii "m1"),
       messageKey (ascii "text") (ascii "12") (ascii "m2"),
       messageKey (ascii "text") (ascii "12") (ascii "m3")] ∧
    stored demoGob storeTwoChannelsCorrupt.DB = [msg "m9", msg "m1", msg "m3"] ∧
    bytesLt (ascii "m9") (ascii "m3") = false ∧
    GetMessageList demoGob (some storeTwoChannelsCorrupt) (ascii "12") (ascii "text")
      (ascii "m3") QueryDirectionBefore 5 = ([msg "m1", msg "m9"], [], none) :=
  ⟨by decide, by decide, by decide, by decide⟩

/-! ## Push and pop: properties -/

/-- C17: for a queue of any length, after `PushEvent` the queue holds at most 1000
events: the last 999 of the previous contents at most (all of them when fewer than 1000
were stored), followed by the pushed event as last element. -/
theorem PushEvent_bounded (q : EventQueue) (event : Event) :
    (PushEvent q event).Events.length ≤ 1000 ∧
    (PushEvent q event).Events = q.Events.drop (q.Events.length - 999) ++ [event] ∧
    (PushEvent q event).Events.length = min q.Events.length 999 + 1 ∧
    (PushEvent q event).Events.getLast? = some event := by
  have h := PushEvent_events q event
  rw [h]
  refine ⟨?_, rfl, ?_, by simp⟩
  · simp; omega
  · simp; omega

theorem popN_empty (k : Nat) :
    popN k { Events := [] } = (List.replicate k none, { Events := [] }) := by
  induction k with
  | zero => rfl
  | succ n ih =>
    have h : PopEvent { Events := [] } = (none, { Events := [] }) := rfl
    simp only [popN, h, ih, List.replicate_succ]

/-- C18: on a queue holding n events, n successive `PopEvent` calls return the stored
events in storage order, each once; every further call returns nil, and the queue is
empty afterwards. With strictly increasing stored sn the returned sn do not decrease. -/
theorem PopEvent_fifo (events : List Event) (k : Nat) :
    popN (events.length + k) { Events := events } =
      (events.map some ++ List.replicate k none, { Events := [] }) ∧
    (SnIncreasing events → (events.map (fun e => e.Sn)).Pairwise (fun a b => a ≤ b)) := by
  constructor
  · induction events with
    | nil => simpa using popN_empty k
    | cons x xs ih =>
      have hlen : (x :: xs).length + k = (xs.length + k) + 1 := by
        simp only [List.length_cons]; omega
      have h : PopEvent { Events := x :: xs } = (some x, { Events := xs }) := rfl
      rw [hlen]
      simp only [popN, h, ih, List.map_cons, List.cons_append]
  · intro hs
    rw [List.pairwise_map]
    exact List.Pairwise.imp (fun h => Int.le_of_lt h) hs

/-- Witness of C18: three pops and two more on the queue of events 1, 2, 3. -/
theorem PopEvent_fifo_witness :
    SnIncreasing queue123.Events ∧
    popN 5 queue123 =
      ([some (eventAt 1), some (eventAt 2), some (eventAt 3), none, none],
        { Events := [] }) ∧
    (queue123.Events.map (fun e => e.Sn)).Pairwise (fun a b => a ≤ b) :=
  have hs : SnIncreasing queue123.Events := by decide
  ⟨hs, (PopEvent_fifo queue123.Events 2).1, (PopEvent_fifo queue123.Events 2).2 hs⟩

/-! ## Send: the event log and later rounds -/

theorem Send_events (server : Server) (event : Event) (env : Clients) (sched : Schedule) :
    (Send server event env sched).1.events = PushEvent server.events event := rfl

theorem resume_after_last (old : List Event) (last event : Event) (k : Nat)
    (hlast : old.getLast? = some last) (hk : k ≤ old.length - 1)
    (hearlier : ∀ x ∈ old.dropLast, x.Sn ≠ last.Sn) (hnew : event.Sn ≠ last.Sn) :
    ((old.drop k ++ [event]).foldl (resumeStep last.Sn) ([], false)).1 = [event] := by
  have hsplit : old.dropLast ++ [last] = old :=
    List.dropLast_append_getLast? last (by simp [hlast])
  have hlen : old.dropLast.length = old.length - 1 := by simp
  have hdrop : old.drop k = old.dropLast.drop k ++ [last] := by
    conv_lhs => rw [← hsplit]
    exact List.drop_append_of_le_length (by omega)
  rw [hdrop, List.foldl_append, List.foldl_append,
    resume_absent last.Sn _ [] (fun x hx => hearlier x (List.mem_of_mem_drop hx))]
  simp [resumeStep, hnew]

theorem foldl_applyStep_client (server : Server) (calls : List Call) :
    (calls.map Step.client).foldl applyStep server = server := by
  induction calls with
  | nil => rfl
  | cons c cs ih => simpa [applyStep] using ih

theorem runSteps_SendSteps (server : Server) (event : Event) (env : Clients)
    (sched : Schedule) :
    runSteps server (SendSteps server event env sched) =
      (Send server event env sched).1 := by
  unfold runSteps SendSteps Send
  simp only [List.foldl_append, List.foldl_cons, List.foldl_nil, foldl_applyStep_client,
    applyStep, stampEvent]

theorem pushedEvents_client (calls : List Call) :
    pushedEvents (calls.map Step.client) = [] := by
  induction calls with
  | nil => rfl
  | cons c cs ih => simp [pushedEvents]

theorem clientCalls_client (calls : List Call) :
    clientCalls (calls.map Step.client) = calls := by
  induction calls with
  | nil => rfl
  | cons c cs ih => simpa [clientCalls] using ih

theorem pushedEvents_append (xs ys : List Step) :
    pushedEvents (xs ++ ys) = pushedEvents xs ++ pushedEvents ys := by
  simp [pushedEvents]

theorem clientCalls_append (xs ys : List Step) :
    clientCalls (xs ++ ys) = clientCalls xs ++ clientCalls ys := by
  simp [clientCalls]

theorem pushedEvents_SendSteps (server : Server) (event : Event) (env : Clients)
    (sched : Schedule) :
    pushedEvents (SendSteps server event env sched) = [event] := by
  unfold SendSteps
  simp only [pushedEvents_append, pushedEvents_client]
  rfl

theorem clientCalls_SendSteps (server : Server) (event : Event) (env : Clients)
    (sched : Schedule) :
    clientCalls (SendSteps server event env sched) = (Send server event env sched).2 := by
  unfold SendSteps Send
  simp only [clientCalls_append, clientCalls_client]
  simp [clientCalls]

/-- Steps that push nothing all find the event log as it was at the start. -/
theorem logAt_events (server : Server) (steps : List Step)
    (h : pushedEvents steps = []) :
    ∀ p ∈ logAt server steps, p.2 = server.events := by
  induction steps generalizing server with
  | nil => intro p hp; simp [logAt] at hp
  | cons s rest ih =>
    intro p hp
    simp only [logAt, List.mem_cons] at hp
    rcases hp with hp | hp
    · rw [hp]
    · cases s with
      | pushEvent e => simp [pushedEvents] at h
      | client c =>
        have hr : pushedEvents rest = [] := by simpa [pushedEvents] using h
        exact ih server hr p hp
      | commit ws wh =>
        have hr : pushedEvents rest = [] := by simpa [pushedEvents] using h
        exact ih (applyStep server (Step.commit ws wh)) hr p hp

/-- Every call `Send` makes on a client finds the event log with the event pushed. -/
theorem logAt_SendSteps (server : Server) (event : Event) (env : Clients)
    (sched : Schedule) (c : Call) (q : EventQueue)
    (h : (Step.client c, q) ∈ logAt server (SendSteps server event env sched)) :
    q = PushEvent server.events event := by
  have hsteps : SendSteps server event env sched =
      Step.pushEvent event ::
        (((Send server event env sched).2.map Step.client) ++
          [Step.commit (Send server event env sched).1.websockets
            (Send server event env sched).1.webhooks]) := rfl
  rw [hsteps] at h
  simp only [logAt, List.mem_cons, Prod.mk.injEq, false_and, false_or, reduceCtorEq] at h
  have hno : pushedEvents (((Send server event env sched).2.map Step.client) ++
      [Step.commit (Send server event env sched).1.websockets
        (Send server event env sched).1.webhooks]) = [] := by
    simp only [pushedEvents_append, pushedEvents_client]
    rfl
  exact logAt_events (applyStep server (Step.pushEvent event)) _ hno _ h

/-- In a log with increasing sequence numbers followed by a new event with a greater
one, the newest stored sn is carried by no other stored event and not by the new one. -/
theorem SnIncreasing_last (old : List Event) (last event : Event)
    (hs : SnIncreasing (old ++ [event])) (hlast : old.getLast? = some last) :
    (∀ x ∈ old.dropLast, x.Sn ≠ last.Sn) ∧ event.Sn ≠ last.Sn := by
  have hsplit : old.dropLast ++ [last] = old :=
    List.dropLast_append_getLast? last (by simp [hlast])
  unfold SnIncreasing at hs
  rw [← hsplit] at hs
  simp only [List.pairwise_append, List.mem_append, List.mem_singleton] at hs
  obtain ⟨⟨_, _, h1⟩, _, h2⟩ := hs
  refine ⟨fun x hx => ?_, ?_⟩
  · have := h1 x hx last rfl
    omega
  · have := h2 last (Or.inr rfl) event rfl
    omega

/-- C19: `Send` appends the event to the event log exactly once and before any call on
a client, whatever the delivery outcomes and the finishing order. Taken step by step,
`Send` ends in the server and makes the calls the method `Send` is known to; its only
push is that of the event and it is the first step; every call on a client, `PostEvent`
included, finds the event log with the event already pushed, the event being its last
element. Afterwards the log is the previous log without what `PushEvent` evicted,
followed by the event as last element. `ResumeEvents` of the previously newest sn
returns exactly the event when no other stored event and not the event itself carries
that sn, in particular when the sequence numbers increase along the log and the event
carries a greater one, as the allocator of sequence numbers gives them. -/
theorem Send_stamps_first (server : Server) (event : Event) (env : Clients)
    (sched : Schedule) :
    runSteps server (SendSteps server event env sched) =
      (Send server event env sched).1 ∧
    clientCalls (SendSteps server event env sched) = (Send server event env sched).2 ∧
    pushedEvents (SendSteps server event env sched) = [event] ∧
    (SendSteps server event env sched).head? = some (Step.pushEvent event) ∧
    (∀ (c : Call) (q : EventQueue),
      (Step.client c, q) ∈ logAt server (SendSteps server event env sched) →
      q = PushEvent server.events event ∧ q.Events.getLast? = some event) ∧
    (Send server event env sched).1.events.Events =
      server.events.Events.drop (server.events.Events.length - 999) ++ [event] ∧
    (Send server event env sched).1.events.Events.getLast? = some event ∧
    (∀ last : Event, server.events.Events.getLast? = some last →
      (∀ x ∈ server.events.Events.dropLast, x.Sn ≠ last.Sn) →
      event.Sn ≠ last.Sn →
      (ResumeEvents (Send server event env sched).1.events last.Sn).1 = [event]) ∧
    (∀ last : Event, server.events.Events.getLast? = some last →
      SnIncreasing (server.events.Events ++ [event]) →
      (ResumeEvents (Send server event env sched).1.events last.Sn).1 = [event]) := by
  have hE : (Send server event env sched).1.events.Events =
      server.events.Events.drop (server.events.Events.length - 999) ++ [event] := by
    rw [Send_events, PushEvent_events]
  have hR : ∀ last : Event, server.events.Events.getLast? = some last →
      (∀ x ∈ server.events.Events.dropLast, x.Sn ≠ last.Sn) →
      event.Sn ≠ last.Sn →
      (ResumeEvents (Send server event env sched).1.events last.Sn).1 = [event] := by
    intro last hlast hearlier hnew
    unfold ResumeEvents
    simp only
    rw [hE]
    exact resume_after_last _ last event _ hlast (by omega) hearlier hnew
  refine ⟨runSteps_SendSteps server event env sched,
    clientCalls_SendSteps server event env sched,
    pushedEvents_SendSteps server event env sched, rfl, ?_, hE, by rw [hE]; simp, hR, ?_⟩
  · intro c q h
    have hq := logAt_SendSteps server event env sched c q h
    refine ⟨hq, ?_⟩
    rw [hq, PushEvent_events]
    simp
  · intro last hlast hs
    obtain ⟨h1, h2⟩ := SnIncreasing_last _ last event hs hlast
    exact hR last hlast h1 h2

/-- Witness of C19: sending event 4 to the server with three push sessions and four
callback sinks whose log holds the events 1, 2, 3. The call of `PostEvent` on the
second push session, which fails, finds the log 1, 2, 3, 4; `ResumeEvents` of 3
returns event 4. -/
theorem Send_stamps_first_witness :
    (Step.client (Call.wsPostEvent (some ws2) (eventAt 4)),
        ({ Events := [eventAt 1, eventAt 2, eventAt 3, eventAt 4] } : EventQueue)) ∈
      logAt { server34 with events := queue123 }
        (SendSteps { server34 with events := queue123 } (eventAt 4) outcomes34 sched34) ∧
    ({ Events := [eventAt 1, eventAt 2, eventAt 3, eventAt 4] } : EventQueue) =
      PushEvent queue123 (eventAt 4) ∧
    queue123.Events.getLast? = some (eventAt 3) ∧
    (∀ x ∈ queue123.Events.dropLast, x.Sn ≠ (eventAt 3).Sn) ∧
    (eventAt 4).Sn ≠ (eventAt 3).Sn ∧
    SnIncreasing (queue123.Events ++ [eventAt 4]) ∧
    (ResumeEvents (Send { server34 with events := queue123 } (eventAt 4) outcomes34
      sched34).1.events (eventAt 3).Sn).1 = [eventAt 4] :=
  have h0 : (Step.client (Call.wsPostEvent (some ws2) (eventAt 4)),
        ({ Events := [eventAt 1, eventAt 2, eventAt 3, eventAt 4] } : EventQueue)) ∈
      logAt { server34 with events := queue123 }
        (SendSteps { server34 with events := queue123 } (eventAt 4) outcomes34 sched34) := by
    decide
  have h1 : queue123.Events.getLast? = some (eventAt 3) := by decide
  have h2 : ∀ x ∈ queue123.Events.dropLast, x.Sn ≠ (eventAt 3).Sn := by decide
  have h3 : (eventAt 4).Sn ≠ (eventAt 3).Sn := by decide
  have h4 : SnIncreasing (queue123.Events ++ [eventAt 4]) := by decide
  ⟨h0, ((Send_stamps_first { server34 with events := queue123 } (eventAt 4)
      outcomes34 sched34).2.2.2.2.1 _ _ h0).1, h1, h2, h3, h4,
    (Send_stamps_first { server34 with events := queue123 } (eventAt 4)
      outcomes34 sched34).2.2.2.2.2.2.2.2 (eventAt 3) h1 h4⟩

/-- Outside that condition the replay differs. Sending an event with sn 1 to a log
holding an event with sn 1 makes `ResumeEvents` of 1 return nothing; sending event 9
to a log holding the sn 5, 7, 5 makes `ResumeEvents` of 5 return the events 7 and 9.
`Send` and the queue never compare the sn of the event they are given. -/
theorem Send_resume_repeated_sn :
    serverLog1.events.Events.getLast? = some (eventAt 1) ∧
    (Send serverLog1 deleted1 outcomesOk schedNone).1.events.Events =
      [eventAt 1, deleted1] ∧
    (ResumeEvents (Send serverLog1 deleted1 outcomesOk schedNone).1.events
      (eventAt 1).Sn).1 = [] ∧
    serverLog575.events.Events.getLast? = some (eventAt 5) ∧
    (ResumeEvents (Send serverLog575 (eventAt 9) outcomesOk schedNone).1.events
      (eventAt 5).Sn).1 = [eventAt 7, eventAt 9] :=
  ⟨by decide, by decide, by decide, by decide, by decide⟩

theorem whPosted_whTasks (env : Clients) (event : Event) (H : List (Option WebHook)) :
    whPosted ((H.map (whTask env event)).map Prod.snd).flatten =
      (H.filterMap id).map (fun w => (w, event)) := by
  induction H with
  | nil => rfl
  | cons w ws ih =>
    simp only [List.map_cons, List.flatten_cons, whPosted, List.filterMap_append] at ih ⊢
    rw [ih]
    cases w with
    | none => simp [whTask]
    | some w =>
      unfold whTask
      cases h : env.whPostEvent w event with
      | none => simp [h]
      | some e => cases e <;> simp [h]

theorem Send_whPosted_perm (server : Server) (event : Event) (env : Clients)
    (sched : Schedule) (hf : sched.Fair server) :
    (whPosted (Send server event env sched).2).Perm
      ((server.webhooks.filterMap id).map (fun w => (w, event))) := by
  have hws := finished_perm (wsTask env event) server.websockets sched.wsOrder hf.1
  have hwh := finished_perm (whTask env event) server.webhooks sched.whOrder hf.2
  have hcalls : (Send server event env sched).2.Perm
      (((server.websockets.map (wsTask env event)).map Prod.snd).flatten ++
       ((server.webhooks.map (whTask env event)).map Prod.snd).flatten) :=
    List.Perm.append (List.Perm.flatten (List.Perm.map _ hws))
      (List.Perm.flatten (List.Perm.map _ hwh))
  have h := List.Perm.filterMap (fun c =>
    match c with
    | Call.whPostEvent wh e => some (wh, e)
    | _ => none) hcalls
  rw [List.filterMap_append] at h
  have e1 := whPosted_wsTasks env event server.websockets
  have e2 := whPosted_whTasks env event server.webhooks
  unfold whPosted at e1 e2 ⊢
  rw [e1, e2, List.nil_append] at h
  exact h

theorem Send_webhooks_perm (server : Server) (event : Event) (env : Clients)
    (sched : Schedule) (hf : sched.Fair server) :
    (Send server event env sched).1.webhooks.Perm
      (server.webhooks.filter (whKept env event)) := by
  have hwh := finished_perm (whTask env event) server.webhooks sched.whOrder hf.2
  have h : (collect ((finished (whTask env event) server.webhooks sched.whOrder).map
      Prod.fst)).Perm (collect ((server.webhooks.map (whTask env event)).map Prod.fst)) :=
    List.Perm.filter _ (List.Perm.map _ hwh)
  rw [collect_whTasks] at h
  exact h

theorem never_invoked (w : WebHook) (rounds : List Round) (server : Server)
    (hno : some w ∉ server.webhooks) (hfa : FairAll server rounds) :
    ∀ p ∈ whPosted (sendAll server rounds).2, p.1 ≠ w := by
  induction rounds generalizing server with
  | nil => intro p hp; simp [sendAll, whPosted] at hp
  | cons r rs ih =>
    obtain ⟨hf, hrest⟩ := hfa
    intro p hp
    have hsplit : whPosted (sendAll server (r :: rs)).2 =
        whPosted (Send server r.event r.env r.sched).2 ++
        whPosted (sendAll (Send server r.event r.env r.sched).1 rs).2 := by
      simp [sendAll, whPosted]
    rw [hsplit, List.mem_append] at hp
    rcases hp with hp | hp
    · have hm := (Send_whPosted_perm server r.event r.env r.sched hf).mem_iff.mp hp
      rw [List.mem_map] at hm
      obtain ⟨w1, hw1, hpw⟩ := hm
      have hreg : some w1 ∈ server.webhooks := by
        rw [List.mem_filterMap] at hw1
        obtain ⟨o, ho, hid⟩ := hw1
        simp only [id] at hid
        rw [← hid]; exact ho
      intro heq
      rw [← hpw] at heq
      simp only at heq
      rw [heq] at hreg
      exact hno hreg
    · have hno2 : some w ∉ (Send server r.event r.env r.sched).1.webhooks := by
        intro hmem
        have := (Send_webhooks_perm server r.event r.env r.sched hf).mem_iff.mp hmem
        exact hno (List.mem_filter.mp this).1
      exact ih _ hno2 hrest p hp

theorem countP_posted (w : WebHook) (event : Event) (l : List (Option WebHook)) :
    ((l.filterMap id).map (fun v => (v, event))).countP
        (fun p => decide (p = (w, event))) =
      l.countP (fun o => decide (o = some w)) := by
  induction l with
  | nil => rfl
  | cons x xs ih =>
    cases x with
    | none =>
      rw [List.filterMap_cons, List.countP_cons]
      simpa using ih
    | some v =>
      rw [List.filterMap_cons]
      simp only [id, List.map_cons]
      rw [List.countP_cons, List.countP_cons, ih]
      by_cases h : v = w
      · simp [h]
      · simp [h]

/-- C20: take a `Send` round followed by further rounds with no registration in
between. A callback sink whose `PostEvent` returned `ErrUnauthorized` in the first round
gets no `PostEvent` call in the second or any later round. A sink whose `PostEvent`
returned `ErrServerError` in the first round gets in the second round one `PostEvent`
call per registration (one call when it is registered once), and every `PostEvent` call
of the second round carries the event of the second round, not the first. -/
theorem Send_next_round (server : Server) (event : Event) (env : Clients)
    (sched : Schedule) (second : Round) (later : List Round) (w : WebHook)
    (hf : sched.Fair server)
    (hfl : FairAll (Send server event env sched).1 (second :: later)) :
    (env.whPostEvent w event = some GoError.ErrUnauthorized →
      ∀ p ∈ whPosted (sendAll (Send server event env sched).1 (second :: later)).2,
        p.1 ≠ w) ∧
    (env.whPostEvent w event = some GoError.ErrServerError →
      (whPosted (Send (Send server event env sched).1 second.event second.env
        second.sched).2).countP (fun p => decide (p = (w, second.event))) =
        server.webhooks.countP (fun o => decide (o = some w))) ∧
    (∀ p ∈ whPosted (Send (Send server event env sched).1 second.event second.env
        second.sched).2, p.2 = second.event) := by
  have hperm1 := Send_webhooks_perm server event env sched hf
  have hperm2 := Send_whPosted_perm (Send server event env sched).1 second.event
    second.env second.sched hfl.1
  refine ⟨?_, ?_, ?_⟩
  · intro hu
    apply never_invoked w (second :: later) _ _ hfl
    intro hmem
    have hk := (List.mem_filter.mp (hperm1.mem_iff.mp hmem)).2
    simp [whKept, hu] at hk
  · intro he
    have hk : whKept env event (some w) = true := by simp [whKept, he]
    rw [hperm2.countP_eq, countP_posted, hperm1.countP_eq, List.countP_filter]
    apply List.countP_congr
    intro o _
    constructor
    · intro h
      simp only [Bool.and_eq_true, decide_eq_true_eq] at h
      simpa using h.1
    · intro h
      have ho : o = some w := by simpa using h
      simp [ho, hk]
  · intro p hp
    have hm := hperm2.mem_iff.mp hp
    rw [List.mem_map] at hm
    obtain ⟨w1, _, hpw⟩ := hm
    rw [← hpw]

/-- Witness of C20: on `server34` the second sink answers unauthorized and the third
answers with a server error in the first round; in the second round the third sink
gets one call. -/
theorem Send_next_round_witness :
    sched34.Fair server34 ∧
    FairAll (Send server34 (eventAt 5) outcomes34 sched34).1 [round2] ∧
    outcomes34.whPostEvent wh3 (eventAt 5) = some GoError.ErrServerError ∧
    (whPosted (Send (Send server34 (eventAt 5) outcomes34 sched34).1 round2.event
      round2.env round2.sched).2).countP (fun p => decide (p = (wh3, round2.event))) = 1 :=
  have hf : sched34.Fair server34 := by decide
  have hfl : FairAll (Send server34 (eventAt 5) outcomes34 sched34).1 [round2] :=
    ⟨by decide, trivial⟩
  have he : outcomes34.whPostEvent wh3 (eventAt 5) = some GoError.ErrServerError := by
    decide
  ⟨hf, hfl, he,
    ((Send_next_round server34 (eventAt 5) outcomes34 sched34 round2 [] wh3 hf hfl).2.1
      he).trans (by decide)⟩

/-! ## Locking: properties -/

theorem held_neutral_append (delta : Sync → Int) (k : Int) (S rest : List Sync)
    (h : ∀ op ∈ S, delta op = 0) :
    held delta k (S ++ rest) = S.map (fun op => (op, k)) ++ held delta k rest := by
  induction S with
  | nil => rfl
  | cons op S ih =>
    have h0 : delta op = 0 := h op (List.mem_cons_self _ _)
    have ih2 := ih (fun o ho => h o (List.mem_cons_of_mem _ ho))
    show (op, k) :: held delta (k + delta op) (S ++ rest) = _
    rw [h0, Int.add_zero, ih2]
    rfl

theorem PushEventSync_eq (pops : Nat) : PushEventSync pops = [Sync.qLock, Sync.qUnlock] := by
  have h : (List.replicate pops PopEventSync).flatten = [] := by
    induction pops with
    | zero => rfl
    | succ n ih => simp [List.replicate_succ, PopEventSync]
  simp [PushEventSync, h]

theorem spawns_neutral (server : Server) :
    ∀ op ∈ (List.range server.websockets.length).map Sync.goWebSocket ++
        (List.range server.webhooks.length).map Sync.goWebHook,
      readDelta op = 0 ∧ writeDelta op = 0 ∧ op.isDelivery = true ∧ op ≠ Sync.commit := by
  intro op hop
  rw [List.mem_append, List.mem_map, List.mem_map] at hop
  rcases hop with ⟨i, _, h⟩ | ⟨i, _, h⟩ <;> rw [← h] <;>
    exact ⟨rfl, rfl, rfl, by simp⟩

theorem SendSync_shape (server : Server) :
    SendSync server = [Sync.rwRLock, Sync.qLock, Sync.qUnlock] ++
      (((List.range server.websockets.length).map Sync.goWebSocket ++
        (List.range server.webhooks.length).map Sync.goWebHook) ++
      [Sync.wait, Sync.rwRUnlock, Sync.rwLock, Sync.commit, Sync.rwUnlock]) := by
  simp [SendSync, PushEventSync_eq]

theorem held_read_send (S : List Sync) (h : ∀ op ∈ S, readDelta op = 0) :
    held readDelta 0 ([Sync.rwRLock, Sync.qLock, Sync.qUnlock] ++
      (S ++ [Sync.wait, Sync.rwRUnlock, Sync.rwLock, Sync.commit, Sync.rwUnlock])) =
    [(Sync.rwRLock, 0), (Sync.qLock, 1), (Sync.qUnlock, 1)] ++
      (S.map (fun op => (op, 1)) ++
      [(Sync.wait, 1), (Sync.rwRUnlock, 1), (Sync.rwLock, 0), (Sync.commit, 0),
        (Sync.rwUnlock, 0)]) := by
  show (Sync.rwRLock, (0 : Int)) :: (Sync.qLock, 0 + 1) :: (Sync.qUnlock, 0 + 1 + 0) ::
    held readDelta (0 + 1 + 0 + 0) (S ++ _) = _
  rw [held_neutral_append readDelta _ S _ h]
  rfl

theorem held_write_send (S : List Sync) (h : ∀ op ∈ S, writeDelta op = 0) :
    held writeDelta 0 ([Sync.rwRLock, Sync.qLock, Sync.qUnlock] ++
      (S ++ [Sync.wait, Sync.rwRUnlock, Sync.rwLock, Sync.commit, Sync.rwUnlock])) =
    [(Sync.rwRLock, 0), (Sync.qLock, 0), (Sync.qUnlock, 0)] ++
      (S.map (fun op => (op, 0)) ++
      [(Sync.wait, 0), (Sync.rwRUnlock, 0), (Sync.rwLock, 0), (Sync.commit, 1),
        (Sync.rwUnlock, 1)]) := by
  show (Sync.rwRLock, (0 : Int)) :: (Sync.qLock, 0 + 0) :: (Sync.qUnlock, 0 + 0 + 0) ::
    held writeDelta (0 + 0 + 0 + 0) (S ++ _) = _
  rw [held_neutral_append writeDelta _ S _ h]
  rfl

/-- C22, as the code has it: `Send` holds the read lock of the registry while the
delivery tasks run. Every delivery goroutine is started, and all of them are waited for,
with the read lock held and the exclusive lock not held; the registries are assigned
afterwards with the exclusive lock held and no read lock held. `PushEvent`,
`ResumeEvents` and `Clear` lock the queue first and unlock it last; `PopEvent` takes no
lock itself. -/
theorem Send_lock_discipline (server : Server) (pops : Nat) :
    (∀ x ∈ held readDelta 0 (SendSync server), x.1.isDelivery = true → x.2 = 1) ∧
    (∀ x ∈ held writeDelta 0 (SendSync server), x.1.isDelivery = true → x.2 = 0) ∧
    (Sync.wait, 1) ∈ held readDelta 0 (SendSync server) ∧
    (∀ x ∈ held readDelta 0 (SendSync server), x.1 = Sync.commit → x.2 = 0) ∧
    (∀ x ∈ held writeDelta 0 (SendSync server), x.1 = Sync.commit → x.2 = 1) ∧
    PopEventSync = [] ∧
    held queueDelta 0 (PushEventSync pops) = [(Sync.qLock, 0), (Sync.qUnlock, 1)] ∧
    held queueDelta 0 ResumeEventsSync = [(Sync.qLock, 0), (Sync.qUnlock, 1)] ∧
    held queueDelta 0 ClearSync = [(Sync.qLock, 0), (Sync.qUnlock, 1)] := by
  obtain ⟨S, hsp, hshape⟩ : ∃ S : List Sync,
      (∀ op ∈ S, readDelta op = 0 ∧ writeDelta op = 0 ∧ op.isDelivery = true ∧
        op ≠ Sync.commit) ∧
      SendSync server = [Sync.rwRLock, Sync.qLock, Sync.qUnlock] ++
        (S ++ [Sync.wait, Sync.rwRUnlock, Sync.rwLock, Sync.commit, Sync.rwUnlock]) :=
    ⟨_, spawns_neutral server, SendSync_shape server⟩
  have hR := held_read_send S (fun op h => (hsp op h).1)
  have hW := held_write_send S (fun op h => (hsp op h).2.1)
  rw [← hshape] at hR hW
  refine ⟨?_, ?_, ?_, ?_, ?_, rfl, ?_, rfl, rfl⟩
  · intro x hx hd
    rw [hR] at hx
    simp only [List.mem_append, List.mem_cons, List.mem_map, List.not_mem_nil,
      or_false] at hx
    rcases hx with (hx | hx | hx) | ⟨op, _, hx⟩ | hx | hx | hx | hx | hx <;>
      subst hx <;> first | rfl | (exact absurd hd (by decide))
  · intro x hx hd
    rw [hW] at hx
    simp only [List.mem_append, List.mem_cons, List.mem_map, List.not_mem_nil,
      or_false] at hx
    rcases hx with (hx | hx | hx) | ⟨op, _, hx⟩ | hx | hx | hx | hx | hx <;>
      subst hx <;> first | rfl | (exact absurd hd (by decide))
  · rw [hR]
    simp
  · intro x hx hc
    rw [hR] at hx
    simp only [List.mem_append, List.mem_cons, List.mem_map, List.not_mem_nil,
      or_false] at hx
    rcases hx with (hx | hx | hx) | ⟨op, hop, hx⟩ | hx | hx | hx | hx | hx
    · subst hx; exact absurd hc (by decide)
    · subst hx; exact absurd hc (by decide)
    · subst hx; exact absurd hc (by decide)
    · subst hx; exact absurd hc (hsp op hop).2.2.2
    · subst hx; exact absurd hc (by decide)
    · subst hx; exact absurd hc (by decide)
    · subst hx; exact absurd hc (by decide)
    · subst hx; rfl
    · subst hx; exact absurd hc (by decide)
  · intro x hx hc
    rw [hW] at hx
    simp only [List.mem_append, List.mem_cons, List.mem_map, List.not_mem_nil,
      or_false] at hx
    rcases hx with (hx | hx | hx) | ⟨op, hop, hx⟩ | hx | hx | hx | hx | hx
    · subst hx; exact absurd hc (by decide)
    · subst hx; exact absurd hc (by decide)
    · subst hx; exact absurd hc (by decide)
    · subst hx; exact absurd hc (hsp op hop).2.2.2
    · subst hx; exact absurd hc (by decide)
    · subst hx; exact absurd hc (by decide)
    · subst hx; exact absurd hc (by decide)
    · subst hx; rfl
    · subst hx; exact absurd hc (by decide)
  · rw [PushEventSync_eq]
    rfl

/-- Witness of C22: the locks held during a `Send` round on the server with three push
sessions and four callback sinks. -/
theorem Send_lock_discipline_witness :
    (Sync.goWebSocket 0, 1) ∈ held readDelta 0 (SendSync server34) ∧
    (∀ x ∈ held readDelta 0 (SendSync server34), x.1.isDelivery = true → x.2 = 1) :=
  ⟨by decide, (Send_lock_discipline server34 0).1⟩

/-- C22 as stated fails: in a `Send` round on the server with three push sessions and
four callback sinks the read lock is held when the first delivery goroutine starts and
when the goroutines are waited for, and it is released only after the wait; the
statements of `PopEvent` hold no lock of the queue. -/
theorem Send_read_lock_held :
    (Sync.goWebSocket 0, 1) ∈ held readDelta 0 (SendSync server34) ∧
    (Sync.wait, 1) ∈ held readDelta 0 (SendSync server34) ∧
    ¬ (∀ x ∈ held readDelta 0 (SendSync server34), x.1.isDelivery = true → x.2 = 0) ∧
    (SendSync server34).dropWhile (fun op => decide (op ≠ Sync.wait)) =
      [Sync.wait, Sync.rwRUnlock, Sync.rwLock, Sync.commit, Sync.rwUnlock] ∧
    Sync.qLock ∉ PopEventSync :=
  ⟨by decide, by decide, by decide, by decide, by decide⟩

/-! ## Log levels: properties -/

/-- The level check where it is right: for a threshold from `OFF` to `TRACE` (or
below `OFF`) a message of a level from `FATAL` to `TRACE` is written exactly when its
level is at most the threshold. -/
theorem Println_threshold (l : Logger) (L m : Int) (hL : L ≤ TRACE)
    (hm1 : FATAL ≤ m) (hm2 : m ≤ TRACE) :
    Println (SetLogLevel l L) m = decide (m ≤ L) := by
  have hL1 : L ≤ (6 : Int) := hL
  have hm3 : (1 : Int) ≤ m := hm1
  have hm4 : m ≤ (6 : Int) := hm2
  by_cases hgt : L < m
  · have hn : ¬ m ≤ L := by omega
    have hgt1 : m > L := hgt
    simp [Println, SetLogLevel, hgt1, hn]
  · have hle : m ≤ L := by omega
    have hgt1 : ¬ m > L := hgt
    have h1 : (1 : Int) ≤ L := by omega
    simp only [Println, SetLogLevel, hgt1, if_false, hle, decide_True]
    interval_cases L <;> interval_cases m <;> first | omega | decide

/-- C23 at the threshold `ALL`: after `SetLogLevel(ALL)` the level of the logrus logger
is info, so a message of level `DEBUG` or `TRACE` passes the check of `Println` and is
dropped by logrus, although its level is below `ALL`; a message of level `INFO` is
written. -/
theorem Println_ALL_drops_debug :
    DEBUG ≤ ALL ∧ TRACE ≤ ALL ∧
    (SetLogLevel initLogger ALL).logrusLevel = LogrusLevel.InfoLevel ∧
    Println (SetLogLevel initLogger ALL) DEBUG = false ∧
    Println (SetLogLevel initLogger ALL) TRACE = false ∧
    Println (SetLogLevel initLogger ALL) INFO = true ∧
    Println (SetLogLevel initLogger TRACE) DEBUG = true :=
  ⟨by decide, by decide, by decide, by decide, by decide, by decide, by decide⟩

/-! ## Server start and shutdown: properties -/

/-- C25: `Close` calls `Close` once on every push session of the registry that is not
nil, in registry order, and makes no other call; these are the sessions of the registry
as it was before, and afterwards both registries are empty. -/
theorem Close_closes_all (server : Server) :
    (Close server).2 =
      (server.websockets.filter (fun ws => ws.isSome)).map (fun ws => Call.wsClose ws) ∧
    wsClosed (Close server).2 = server.websockets.filter (fun ws => ws.isSome) ∧
    wsPosted (Close server).2 = [] ∧ whPosted (Close server).2 = [] ∧
    (Close server).1.websockets = [] ∧ (Close server).1.webhooks = [] := by
  have h1 : (Close server).2 =
      (server.websockets.filter (fun ws => ws.isSome)).map (fun ws => Call.wsClose ws) := by
    unfold Close
    simp only
    induction server.websockets with
    | nil => rfl
    | cons w ws ih =>
      cases w with
      | none => simpa [List.filterMap_cons, List.filter_cons] using ih
      | some v => simpa [List.filterMap_cons, List.filter_cons] using ih
  have hc : ∀ l : List (Option WebSocket),
      wsClosed (l.map (fun ws => Call.wsClose ws)) = l ∧
      wsPosted (l.map (fun ws => Call.wsClose ws)) = [] ∧
      whPosted (l.map (fun ws => Call.wsClose ws)) = [] := by
    intro l
    induction l with
    | nil => exact ⟨rfl, rfl, rfl⟩
    | cons w ws ih =>
      unfold wsClosed wsPosted whPosted at ih ⊢
      simp only [List.map_cons, List.filterMap_cons]
      exact ⟨by rw [ih.1], ih.2.1, ih.2.2⟩
  rw [h1]
  exact ⟨rfl, (hc _).1, (hc _).2.1, (hc _).2.2, rfl, rfl⟩

/-- C29: `NewServer` returns an error and no server exactly when the configured
version differs from 1; for version 1 it returns, without error, a server with empty
registries and an empty event log. -/
theorem NewServer_version (conf : Config) :
    (((NewServer conf).1 = none ∧ (NewServer conf).2 ≠ none) ↔ conf.Version ≠ 1) ∧
    (conf.Version = 1 →
      NewServer conf =
        (some { websockets := [], webhooks := [], conf := conf, events := { Events := [] } },
          none)) := by
  unfold NewServer
  by_cases h : conf.Version = 1
  · simp [h, NewEventQueue]
  · simp [h]

/-- Witness of C29: version 1 gives a server, version 2 gives an error. -/
theorem NewServer_version_witness :
    ({ Version := 1 } : Config).Version = 1 ∧
    (NewServer { Version := 1 }).2 = none ∧
    ((NewServer { Version := 1 }).1.map (fun sv => sv.websockets)) = some [] ∧
    (NewServer { Version := 2 }).1 = none ∧ (NewServer { Version := 2 }).2 ≠ none :=
  have h := (NewServer_version { Version := 1 }).2 rfl
  ⟨rfl, by rw [h], by rw [h]; rfl, by decide, by decide⟩

/-! ## Store keys: properties -/

theorem split_at_colon (a a1 r r1 : Bytes) (ha : 58 ∉ a) (ha1 : 58 ∉ a1)
    (h : a ++ 58 :: r = a1 ++ 58 :: r1) : a = a1 ∧ r = r1 := by
  induction a generalizing a1 with
  | nil =>
    cases a1 with
    | nil => simpa using h
    | cons y ys =>
      simp only [List.nil_append, List.cons_append, List.cons.injEq] at h
      exact absurd (by rw [← h.1]; exact List.mem_cons_self _ _) ha1
  | cons x xs ih =>
    cases a1 with
    | nil =>
      simp only [List.nil_append, List.cons_append, List.cons.injEq] at h
      exact absurd (by rw [h.1]; exact List.mem_cons_self _ _) ha
    | cons y ys =>
      simp only [List.cons_append, List.cons.injEq] at h
      have hxs : 58 ∉ xs := fun hm => ha (List.mem_cons_of_mem _ hm)
      have hys : 58 ∉ ys := fun hm => ha1 (List.mem_cons_of_mem _ hm)
      obtain ⟨e1, e2⟩ := ih ys hxs hys h.2
      exact ⟨by rw [h.1, e1], e2⟩

theorem messageKey_split (s c m : Bytes) : messageKey s c m = s ++ 58 :: (c ++ 58 :: m) := by
  simp [messageKey, colon]

theorem Get_Put_other (db : DB) (key key1 value : Bytes) (h : key1 ≠ key) :
    (DB.Put db key value).Get key1 = db.Get key1 := by
  have hne : ¬ (key, value).1 = key1 := fun e => h e.symm
  induction db with
  | nil =>
    have e0 : DB.Put [] key value = [(key, value)] := by simp [DB.Put]
    rw [e0, Get_cons_ne _ _ _ hne]
  | cons x xs ih =>
    by_cases h1 : bytesLt key x.1 = true
    · rw [Put_cons_lt x xs key value h1, Get_cons_ne _ _ _ hne]
    · by_cases h2 : key = x.1
      · have hx : ¬ x.1 = key1 := fun e => h (by rw [h2, e])
        rw [Put_cons_eq x xs key value h1 h2, Get_cons_ne _ _ _ hne, Get_cons_ne _ _ _ hx]
      · rw [Put_cons_gt x xs key value h1 h2]
        by_cases hx : x.1 = key1
        · rw [Get_cons_eq _ _ _ hx, Get_cons_eq _ _ _ hx]
        · rw [Get_cons_ne _ _ _ hx, Get_cons_ne _ _ _ hx, ih]

/-- C26: on triples whose scope and channel id hold no `:` the key
`scope:channelId:messageId` is injective, so a write under the key of one triple leaves
the record under the key of any other triple as it was. With a `:` in a channel id two
different triples can have the same key. -/
theorem messageKey_injective (s c m s1 c1 m1 : Bytes)
    (hs : 58 ∉ s) (hc : 58 ∉ c) (hs1 : 58 ∉ s1) (hc1 : 58 ∉ c1) :
    (messageKey s c m = messageKey s1 c1 m1 ↔ s = s1 ∧ c = c1 ∧ m = m1) ∧
    (¬ (s = s1 ∧ c = c1 ∧ m = m1) → ∀ (db : DB) (value : Bytes),
      (DB.Put db (messageKey s c m) value).Get (messageKey s1 c1 m1) =
        db.Get (messageKey s1 c1 m1)) ∧
    (messageKey (ascii "text") (ascii "a:b") (ascii "c") =
      messageKey (ascii "text") (ascii "a") (ascii "b:c") ∧ ascii "a:b" ≠ ascii "a") := by
  have hinj : messageKey s c m = messageKey s1 c1 m1 → s = s1 ∧ c = c1 ∧ m = m1 := by
    intro h
    rw [messageKey_split, messageKey_split] at h
    obtain ⟨e1, h2⟩ := split_at_colon s s1 _ _ hs hs1 h
    obtain ⟨e2, e3⟩ := split_at_colon c c1 _ _ hc hc1 h2
    exact ⟨e1, e2, e3⟩
  refine ⟨⟨hinj, ?_⟩, ?_, by decide, by decide⟩
  · rintro ⟨e1, e2, e3⟩
    rw [e1, e2, e3]
  · intro hne db value
    exact Get_Put_other db _ _ value (fun e => hne (hinj e.symm))

/-- Witness of C26: the keys of `m1` in the channels `12` and `123` differ. -/
theorem messageKey_injective_witness :
    58 ∉ ascii "text" ∧ 58 ∉ ascii "12" ∧ 58 ∉ ascii "123" ∧
    (messageKey (ascii "text") (ascii "12") (ascii "m1") =
        messageKey (ascii "text") (ascii "123") (ascii "m1") ↔
      ascii "text" = ascii "text" ∧ ascii "12" = ascii "123" ∧ ascii "m1" = ascii "m1") :=
  have h1 : 58 ∉ ascii "text" := by decide
  have h2 : 58 ∉ ascii "12" := by decide
  have h3 : 58 ∉ ascii "123" := by decide
  ⟨h1, h2, h3,
    (messageKey_injective (ascii "text") (ascii "12") (ascii "m1") (ascii "text")
      (ascii "123") (ascii "m1") h1 h2 h1 h3).1⟩

/-! ## Message deletion: properties -/

theorem memberNameOf_done (md : MessageDelete) (h : nickWithoutAuthor md = false) :
    ∃ n, memberNameOf md = Run.done n ∧ (md.Message.Author = none → n = "") := by
  unfold memberNameOf nickOf authorID
  unfold nickWithoutAuthor at h
  rcases hA : md.Message.Author with _ | a
  · rcases hM : md.Message.Member with _ | mem
    · exact ⟨"", by simp, fun _ => rfl⟩
    · rw [hA, hM] at h
      have hn : mem.Nick = "" := by simpa using h
      exact ⟨"", by simp [hn], fun _ => rfl⟩
  · rcases hM : md.Message.Member with _ | mem
    · by_cases hu : a.Username = ""
      · exact ⟨a.ID, by simp [hu], fun e => by simp at e⟩
      · exact ⟨nameWithId a.Username a.ID, by simp [hu], fun e => by simp at e⟩
    · by_cases hn : mem.Nick = ""
      · by_cases hu : a.Username = ""
        · exact ⟨a.ID, by simp [hn, hu], fun e => by simp at e⟩
        · exact ⟨nameWithId a.Username a.ID, by simp [hn, hu], fun e => by simp at e⟩
      · exact ⟨nameWithId mem.Nick a.ID, by simp [hn], fun e => by simp at e⟩

theorem ownMessage_done (md : MessageDelete) (n : String)
    (h : md.Message.Author = none → n = "") : ∃ b, ownMessage md n = Run.done b := by
  unfold ownMessage authorID
  by_cases hn : n = ""
  · exact ⟨true, by simp [hn]⟩
  · rcases hA : md.Message.Author with _ | a
    · exact absurd (h hA) hn
    · exact ⟨decide (md.OpUser.ID = a.ID), by simp [hn]⟩

theorem printMessageDeleteEvent_done (payload : Payload) (md : MessageDelete)
    (h : nickWithoutAuthor md = false) :
    ∃ line, printMessageDeleteEvent payload md = Run.done line := by
  obtain ⟨n, hn, hnone⟩ := memberNameOf_done md h
  obtain ⟨b, hb⟩ := ownMessage_done md n hnone
  cases b <;> simp only [printMessageDeleteEvent, guildLine, hn, hb] <;> split_ifs <;>
    exact ⟨_, rfl⟩

theorem printMessageDeleteEvent_panic (payload : Payload) (md : MessageDelete)
    (h : nickWithoutAuthor md = true) : printMessageDeleteEvent payload md = Run.panic := by
  unfold nickWithoutAuthor at h
  rcases hA : md.Message.Author with _ | a
  · rcases hM : md.Message.Member with _ | mem
    · rw [hA, hM] at h; simp at h
    · rw [hA, hM] at h
      have hn : ¬ mem.Nick = "" := by simpa using h
      simp [printMessageDeleteEvent, memberNameOf, nickOf, authorID, hA, hM, hn]
  · rw [hA] at h
    rcases hM : md.Message.Member with _ | mem <;> rw [hM] at h <;> simp at h

/-- The event `ProcessMessageDelete` builds: whenever the log line can be built (there
is an author, or no member with a nick), a supported payload is turned into a broadcast
message-deleted event with the channel type of its kind, the ids of the deleted message,
its channel and its guild, the operator, and a user exactly when there is an author. -/
theorem ProcessMessageDelete_event (p : Processor) (payload : Payload) (data : DeleteData)
    (md : MessageDelete) (hd : data.payload? = some md)
    (h : nickWithoutAuthor md = false) :
    ∃ event : EventRecord,
      ProcessMessageDelete p payload data =
        Run.done { err := p.BroadcastEvent event, broadcast := some event } ∧
      event.Type_ = EventTypeMessageDeleted ∧
      event.Channel = some { Id := md.Message.ChannelID, Type_ := data.channelType } ∧
      event.Guild = some { Id := md.Message.GuildID } ∧
      event.Message.map (fun m => m.Id) = some md.Message.ID ∧
      event.Operator = some { Id := md.OpUser.ID, Name := md.OpUser.Username,
                              Avatar := md.OpUser.Avatar, IsBot := md.OpUser.Bot } ∧
      event.User = md.Message.Author.map (fun a =>
        { Id := a.ID, Name := a.Username, Avatar := a.Avatar, IsBot := a.Bot }) := by
  obtain ⟨line, hline⟩ := printMessageDeleteEvent_done payload md h
  have hproc : ∀ ct : ChannelType, ∃ event : EventRecord,
      processDelete p payload md ct =
        Run.done { err := p.BroadcastEvent event, broadcast := some event } ∧
      event.Type_ = EventTypeMessageDeleted ∧
      event.Channel = some { Id := md.Message.ChannelID, Type_ := ct } ∧
      event.Guild = some { Id := md.Message.GuildID } ∧
      event.Message.map (fun m => m.Id) = some md.Message.ID ∧
      event.Operator = some { Id := md.OpUser.ID, Name := md.OpUser.Username,
                              Avatar := md.OpUser.Avatar, IsBot := md.OpUser.Bot } ∧
      event.User = md.Message.Author.map (fun a =>
        { Id := a.ID, Name := a.Username, Avatar := a.Avatar, IsBot := a.Bot }) := by
    intro ct
    unfold processDelete
    rw [hline]
    rcases hA : md.Message.Author with _ | a
    · exact ⟨_, rfl, rfl, rfl, rfl, rfl, rfl, rfl⟩
    · exact ⟨_, rfl, rfl, rfl, rfl, rfl, rfl, rfl⟩
  cases data with
  | MessageDeleteData v =>
    have hv : v = md := by simpa [DeleteData.payload?] using hd
    subst hv
    exact hproc ChannelType.ChannelTypeText
  | PublicMessageDeleteData v =>
    have hv : v = md := by simpa [DeleteData.payload?] using hd
    subst hv
    exact hproc ChannelType.ChannelTypeText
  | DirectMessageDeleteData v =>
    have hv : v = md := by simpa [DeleteData.payload?] using hd
    subst hv
    exact hproc ChannelType.ChannelTypeDirect
  | other shown => simp [DeleteData.payload?] at hd

/-- A missing author is read: for a supported payload without author whose member has
a nick, `ProcessMessageDelete` panics in `printMessageDeleteEvent`. -/
theorem ProcessMessageDelete_panic (p : Processor) (payload : Payload) (data : DeleteData)
    (md : MessageDelete) (hd : data.payload? = some md)
    (h : nickWithoutAuthor md = true) :
    ProcessMessageDelete p payload data = Run.panic := by
  have hp := printMessageDeleteEvent_panic payload md h
  cases data with
  | MessageDeleteData v =>
    have hv : v = md := by simpa [DeleteData.payload?] using hd
    subst hv
    simp [ProcessMessageDelete, processDelete, hp]
  | PublicMessageDeleteData v =>
    have hv : v = md := by simpa [DeleteData.payload?] using hd
    subst hv
    simp [ProcessMessageDelete, processDelete, hp]
  | DirectMessageDeleteData v =>
    have hv : v = md := by simpa [DeleteData.payload?] using hd
    subst hv
    simp [ProcessMessageDelete, processDelete, hp]
  | other shown => simp [DeleteData.payload?] at hd

/-- C24 at a concrete payload: a public delete payload whose message has no author and
a member with a nick yields no event, `ProcessMessageDelete` panics while it builds the
log line; data of another type yields an error and no broadcast, and the same payload
with an author yields an event of channel type text with a user. -/
theorem ProcessMessageDelete_public_no_event :
    deletedNickNoAuthor.Message.Author = none ∧
    ProcessMessageDelete processor7 payloadPublicDelete
      (DeleteData.PublicMessageDeleteData deletedNickNoAuthor) = Run.panic ∧
    (match ProcessMessageDelete processor7 payloadPublicDelete (DeleteData.other "x") with
      | Run.done r => r.err.isSome && r.broadcast.isNone
      | Run.panic => false) = true ∧
    (match ProcessMessageDelete processor7 payloadPublicDelete
        (DeleteData.PublicMessageDeleteData deletedByAuthor) with
      | Run.done r => r.broadcast.map (fun e => (e.Channel, e.User.isSome))
      | Run.panic => none) =
      some (some { Id := "c1", Type_ := ChannelType.ChannelTypeText }, true) :=
  ⟨by decide, by decide, by decide, by decide⟩

/-- C28 at concrete payloads: with no author and a member that has a nick, each of the
three supported payloads makes `printMessageDeleteEvent` read the id of the missing
author, and `ProcessMessageDelete` panics instead of producing an event without a user;
with no author and no member it produces an event without a user. -/
theorem ProcessMessageDelete_reads_missing_author :
    deletedNickNoAuthor.Message.Author = none ∧
    printMessageDeleteEvent payloadDelete deletedNickNoAuthor = Run.panic ∧
    ProcessMessageDelete processor7 payloadDelete
      (DeleteData.MessageDeleteData deletedNickNoAuthor) = Run.panic ∧
    ProcessMessageDelete processor7 payloadDirectDelete
      (DeleteData.DirectMessageDeleteData deletedNickNoAuthor) = Run.panic ∧
    (match ProcessMessageDelete processor7 payloadDelete
        (DeleteData.MessageDeleteData deletedNoAuthor) with
      | Run.done r => r.broadcast.map (fun e => e.User)
      | Run.panic => none) = some none :=
  ⟨by decide, by decide, by decide, by decide, by decide⟩

/-! ## Message conversion: properties -/

/-- The group branch with a member: for a message without channel id and with a group
id that has an author and a member whose join time parses, `convertDtoMessageToMessage`
panics at the assignment of the join time, `guildMember` being nil. -/
theorem convert_group_member_panic (c : Converter) (dm : DtoMessage) (a : DtoUser)
    (mem : DtoMember) (t : Int) (hc : dm.ChannelID = "") (hg : dm.GroupID ≠ "")
    (hA : dm.Author = some a) (hM : dm.Member = some mem)
    (ht : c.unixMilli mem.JoinedAt = some t) :
    convertDtoMessageToMessage c dm = Run.panic := by
  simp [convertDtoMessageToMessage, withMember, userOfAuthor, setJoinedAt, hc, hg, hA, hM, ht]

/-- The guild-channel branch with a member: the message carries the nick of the member,
the avatar of the author and the join time. -/
theorem convert_channel_member (c : Converter) (dm : DtoMessage) (a : DtoUser)
    (mem : DtoMember) (t t1 : Int) (hc : dm.ChannelID ≠ "")
    (hA : dm.Author = some a) (hM : dm.Member = some mem)
    (ht : c.unixMilli mem.JoinedAt = some t) (ht1 : c.unixMilli dm.Timestamp = some t1) :
    convertDtoMessageToMessage c dm =
      Run.done (some
        { Id := dm.ID, Content := c.content dm,
          Channel := some
            { Id := dm.ChannelID,
              Type_ := if c.GetDirectChannelGuild dm.ChannelID = "" then
                  ChannelType.ChannelTypeText
                else ChannelType.ChannelTypeDirect },
          Guild := some { Id := dm.GuildID },
          Member := some { Nick := mem.Nick, Avatar := a.Avatar, JoinedAt := t },
          User := some { Id := a.ID, Name := a.Username, Avatar := a.Avatar, IsBot := a.Bot },
          CreateAt := t1, UpdateAt := 0 }, none) := by
  simp [convertDtoMessageToMessage, withMember, userOfAuthor, setJoinedAt, withCreateAt,
    newGuildMember, hc, hA, hM, ht, ht1]

/-- C27 at a concrete message: a group message with an author, a member and time stamps
that parse makes `convertDtoMessageToMessage` panic; the same message sent to a guild
channel is converted, its member carrying the nick and the join time. -/
theorem convert_group_message_panics :
    groupMessage.ChannelID = "" ∧ groupMessage.GroupID ≠ "" ∧
    groupMessage.Author.isSome = true ∧ groupMessage.Member.isSome = true ∧
    convertDtoMessageToMessage converter5000 groupMessage = Run.panic ∧
    (match convertDtoMessageToMessage converter5000 channelMessage with
      | Run.done (some m, none) => m.Member
      | _ => none) = some { Nick := "nick", Avatar := "a2", JoinedAt := 5000 } :=
  ⟨by decide, by decide, by decide, by decide, by decide, by decide⟩

end GlycCat
